import Mathlib

/-!
Verification of the littlewolf raycaster core (main.c) against its
natural-language specification.

Modelling conventions.
* C float arithmetic is idealized as exact rational arithmetic (ℚ); the float
  literals 0.01f and 1e-2f are modelled as 1/100, and 0.5f (exact in binary
  floating point) as 1/2.  C int values are modelled as unbounded ℤ.
* A C cast from float to int truncates toward zero; `trunc` below models it.
* The library calls sqrtf, cosf and sinf return values that no rational
  function can reproduce exactly, so the functions that call them (`mag`,
  `turn`, and their callers) take oracle parameters `sq`, `co`, `si` of type
  ℚ → ℚ standing for those library routines.  Theorems that depend on a
  property of sqrtf state that property as a hypothesis about the oracle at
  the single value where the source calls it.
* The one place the raycaster compares two calls of `mag` (function `cmp`) is
  modelled by comparing squared magnitudes, which is equivalent because the
  square root is strictly monotone on nonnegative reals.
* When the direction has a zero component, the source computes `slope` with a
  zero denominator inside `sh` (or divides by a zero slope inside `sv`); in
  IEEE float arithmetic the resulting coordinate is infinite (never NaN here,
  see the comments on `sh` and `sv`), and that candidate always loses the
  strict `<` comparison in `cmp`.  ℚ has no infinities, so `sh` and `sv`
  return `Option Point`, with `none` exactly in the case where the source
  produces a non-finite candidate, and `cmp` makes a `none` candidate lose.
* Tile grids hold the numeric tile ids (the source stores characters and
  subtracts the zero digit at lookup).  The source indexes `tiles[y][x]`
  without any bounds check; an out-of-range read is undefined behavior in C
  and is modelled as the empty tile 0.
-/

namespace Littlewolf

/-- Two dimensional point or direction vector in map grid units
(main.c lines 4-9). -/
structure Point where
  x : ℚ
  y : ℚ
deriving DecidableEq

/-- Truncation toward zero: the meaning of a C cast from float to int. -/
def trunc (q : ℚ) : ℤ := if q < 0 then ⌈q⌉ else ⌊q⌋

/-- turn (main.c 11-18): rotation by angle t, with `co`, `si` the cosf and
sinf oracles. -/
def turn (co si : ℚ → ℚ) (a : Point) (t : ℚ) : Point :=
  ⟨a.x * co t - a.y * si t, a.x * si t + a.y * co t⟩

/-- rag (main.c 21-28): right angle rotation. -/
def rag (a : Point) : Point := ⟨-a.y, a.x⟩

/-- sub (main.c 30-37). -/
def sub (a b : Point) : Point := ⟨a.x - b.x, a.y - b.y⟩

/-- add (main.c 39-46). -/
def add (a b : Point) : Point := ⟨a.x + b.x, a.y + b.y⟩

/-- mul (main.c 48-55). -/
def mul (a : Point) (n : ℚ) : Point := ⟨a.x * n, a.y * n⟩

/-- Squared Euclidean magnitude.  The source computes
mag a = sqrtf (a.x*a.x + a.y*a.y) (main.c 57-60) and uses the result either
inside comparisons, where comparing squares is equivalent, or through the
sqrtf oracle (`mag` below). -/
def mag2 (a : Point) : ℚ := a.x * a.x + a.y * a.y

/-- mag (main.c 57-60) through the sqrtf oracle `sq`. -/
def mag (sq : ℚ → ℚ) (a : Point) : ℚ := sq (mag2 a)

/-- dvd (main.c 62-69). -/
def dvd (a : Point) (n : ℚ) : Point := ⟨a.x / n, a.y / n⟩

/-- unt (main.c 71-74): normalization. -/
def unt (sq : ℚ → ℚ) (a : Point) : Point := dvd a (mag sq a)

/-- slope (main.c 76-79): y / x.  ℚ division is total with q / 0 = 0; every
use below either has a nonzero denominator or is commented. -/
def slope (a : Point) : ℚ := a.y / a.x

/-- fl (main.c 82-85), fast floor: (int) x - (x < (int) x). -/
def fl (x : ℚ) : ℤ := trunc x - (if x < (trunc x : ℚ) then 1 else 0)

/-- cl (main.c 88-91), fast ceil: (int) x + (x > (int) x). -/
def cl (x : ℚ) : ℤ := trunc x + (if (trunc x : ℚ) < x then 1 else 0)

/-- Tile id at row i, column j of a grid.  Reads outside the stored lists
default to the empty tile 0 (undefined behavior in the C source). -/
def tileIdx (g : List (List ℕ)) (i j : ℕ) : ℕ := (g.getD i []).getD j 0

/-- tile (main.c 116-121): truncate both coordinates to int and index the
grid.  A negative index is undefined behavior in C, modelled as tile 0. -/
def tile (a : Point) (tiles : List (List ℕ)) : ℕ :=
  if 0 ≤ trunc a.x ∧ 0 ≤ trunc a.y then
    tileIdx tiles (trunc a.y).toNat (trunc a.x).toNat
  else 0

/-- Raycast result (main.c 123-128). -/
structure Hit where
  tile : ℕ
  whereAt : Point
deriving DecidableEq

/-- dec (main.c 131-134): floating point decimal part, x - (int) x. -/
def dec (x : ℚ) : ℚ := x - (trunc x : ℚ)

/-- sh (main.c 94-100): the next vertical grid line crossing.  When b.x = 0
the source evaluates slope b with a zero denominator; b.y / 0 is ±∞ in float
arithmetic, the crossing ordinate y = ∓∞ is non-finite (x - a.x is the
nonzero cl (a.x - 1) - a.x), and the candidate loses in `cmp`; that case is
returned as `none` here. -/
def sh (a b : Point) : Option Point :=
  if b.x = 0 then none
  else
    let x : ℚ := if 0 < b.x then (fl (a.x + 1) : ℤ) else (cl (a.x - 1) : ℤ)
    some ⟨x, slope b * (x - a.x) + a.y⟩

/-- sv (main.c 103-109): the next horizontal grid line crossing.  When
b.y = 0 the source divides y - a.y (nonzero) by the zero slope, the abscissa
is ±∞, and the candidate loses in `cmp`; that case is returned as `none`.
When b.x = 0 (and b.y ≠ 0) the float slope is ±∞ and (y - a.y) / ±∞ = ∓0, so
the abscissa is exactly a.x; rational total division gives the same value
((y - a.y) / (b.y / 0) = (y - a.y) / 0 = 0), so no special case is needed. -/
def sv (a b : Point) : Option Point :=
  if b.y = 0 then none
  else
    let y : ℚ := if 0 < b.y then (fl (a.y + 1) : ℤ) else (cl (a.y - 1) : ℤ)
    some ⟨(y - a.y) / slope b + a.x, y⟩

/-- cmp (main.c 111-114): keep whichever candidate is closer to a, the
second on ties; mag comparison done on squares (sqrt is strictly monotone).
A `none` (non-finite) candidate always loses, matching IEEE comparisons with
an infinite magnitude. -/
def cmp (a : Point) (b c : Option Point) : Option Point :=
  match b, c with
  | some p, some q => some (if mag2 (sub p a) < mag2 (sub q a) then p else q)
  | some p, none => some p
  | none, q => q

/-- The crossing chosen by one step of cast (main.c 138). -/
def rayStep (a d : Point) : Option Point :=
  cmp a (sh a d) (sv a d)

/-- The epsilon nudge cast applies to the chosen crossing before sampling the
wall grid (main.c 139-144): the full direction scaled by 0.01 at a lattice
corner, the x component alone when ray.x sits on an integer boundary,
otherwise the y component alone. -/
def nudge (d ray : Point) : Point :=
  let delta := mul d (1/100)
  if dec ray.x = 0 ∧ dec ray.y = 0 then delta
  else if dec ray.x = 0 then ⟨delta.x, 0⟩
  else ⟨0, delta.y⟩

/-- cast (main.c 136-147) as a fuel-indexed recursion: the source function
recurses with no bound, so `castFuel n` runs at most n steps and returns
`none` when the fuel runs out (or when both step candidates are non-finite,
which happens only for the zero direction). -/
def castFuel : ℕ → Point → Point → List (List ℕ) → Option Hit
  | 0, _, _, _ => none
  | n + 1, p, d, walling =>
    match rayStep p d with
    | none => none
    | some ray =>
      let test := add ray (nudge d ray)
      let hit : Hit := ⟨tile test walling, test⟩
      if hit.tile ≠ 0 then some hit else castFuel n ray d walling

/-- cast terminates on the given input: some finite fuel suffices. -/
def castTerminates (p d : Point) (walling : List (List ℕ)) : Prop :=
  ∃ n hit, castFuel n p d walling = some hit

/-- An oriented segment (main.c 149-154). -/
structure Line where
  a : Point
  b : Point
deriving DecidableEq

/-- pcast (main.c 157-160): floor and ceiling distance parameter,
size / (2 * (y + 1) - yres), the denominator computed in int arithmetic.
The denominator is zero when 2 * (y + 1) = yres (float ±∞ in C, 0 in ℚ);
no claim below depends on that value. -/
def pcast (size : ℚ) (yres y : ℤ) : ℚ := size / ((2 * (y + 1) - yres : ℤ) : ℚ)

/-- lerp (main.c 172-175): linear interpolation along a line. -/
def lerp (l : Line) (n : ℚ) : Point := add l.a (mul (sub l.b l.a) n)

/-- Screen-row bounds and unclamped size of one column of wall (main.c
244-250). -/
structure Wall where
  top : ℤ
  bot : ℤ
  size : ℚ
deriving DecidableEq

/-- project (main.c 252-259).  The two divisions by 2.0f are followed by an
assignment to int, hence `trunc`. -/
def project (xres yres : ℤ) (fov : Line) (corrected : Point) : Wall :=
  let size : ℚ := 1/2 * fov.a.x * (xres : ℚ) /
    (if corrected.x < 1/100 then 1/100 else corrected.x)
  let top : ℤ := trunc (((yres : ℚ) + size) / 2)
  let bot : ℤ := trunc (((yres : ℚ) - size) / 2)
  ⟨if top > yres then yres else top, if bot < 0 then 0 else bot, size⟩

/-- Hero state (main.c 261-270). -/
structure Hero where
  fov : Line
  whereAt : Point
  velocity : Point
  speed : ℚ
  acceleration : ℚ
  theta : ℚ
deriving DecidableEq

/-- The four directional key states read by move (main.c 283-291). -/
structure Keys where
  w : Bool
  s : Bool
  d : Bool
  a : Bool
deriving DecidableEq

/-- The velocity accumulated by move before the speed cap (main.c 283-294):
acceleration per pressed WASD key, else geometric decay. -/
def moveV1 (co si : ℚ → ℚ) (hero : Hero) (key : Keys) : Point :=
  if key.w || key.s || key.d || key.a then
    let reference : Point := ⟨1, 0⟩
    let direction := turn co si reference hero.theta
    let acceleration := mul direction hero.acceleration
    let v1 := if key.w then add hero.velocity acceleration else hero.velocity
    let v2 := if key.s then sub v1 acceleration else v1
    let v3 := if key.d then add v2 (rag acceleration) else v2
    if key.a then sub v3 (rag acceleration) else v3
  else mul hero.velocity (1 - hero.acceleration / hero.speed)

/-- The velocity after the speed cap (main.c 296): rescaled to exactly speed
when the magnitude reported by the sqrtf oracle exceeds it. -/
def moveV2 (sq co si : ℚ → ℚ) (hero : Hero) (key : Keys) : Point :=
  if mag sq (moveV1 co si hero key) > hero.speed then
    mul (unt sq (moveV1 co si hero key)) hero.speed
  else moveV1 co si hero key

/-- move (main.c 279-306): accumulate or decay velocity (`moveV1`), cap it
(`moveV2`), move, and undo the move with zero velocity on a wall collision.
The locals last and the tentative position are written out inline. -/
def move (sq co si : ℚ → ℚ) (hero : Hero) (walling : List (List ℕ))
    (key : Keys) : Hero :=
  if tile (add hero.whereAt (moveV2 sq co si hero key)) walling ≠ 0 then
    { hero with velocity := ⟨0, 0⟩, whereAt := hero.whereAt }
  else
    { hero with velocity := moveV2 sq co si hero key,
                whereAt := add hero.whereAt (moveV2 sq co si hero key) }

/-- color (main.c 316-319): 0xAA shifted into the channel selected by the
tile id, as a 32-bit value.  For tile 0 the C shift amount is negative
(undefined behavior); ℕ truncated subtraction makes it a zero shift.  No
claim depends on the value. -/
def color (t : ℕ) : ℕ := (0xAA <<< (8 * (t - 1))) % 2 ^ 32

/-- One C for loop over rows lo, lo+1, ..., hi-1, recording the pixel value
written at each row. -/
def forRows (lo hi : ℤ) (f : ℤ → ℕ) : List (ℤ × ℕ) :=
  (List.range (hi - lo).toNat).map fun i => (lo + (i : ℤ), f (lo + (i : ℤ)))

/-- The ceiling loop of render (main.c 342-343): rows from wall.top up to,
exclusively, gpu.xres (not gpu.yres), sampling the ceiling grid along the
trace at +pcast. -/
def renderCeiling (trace : Line) (size : ℚ) (xres yres top : ℤ)
    (ceiling : List (List ℕ)) : List (ℤ × ℕ) :=
  forRows top xres fun y => color (tile (lerp trace (pcast size yres y)) ceiling)

/-- Modelled from the spec wording of claim C2 (and the parenthetical of
spec section 4.2): nudge along the full scaled direction at a lattice
corner, otherwise an x-axis nudge if y is the exact boundary and a y-axis
nudge if x is the exact boundary.  To be compared with `nudge`, which is
translated from the source. -/
def nudgeSpec (d ray : Point) : Point :=
  let delta := mul d (1/100)
  if dec ray.x = 0 ∧ dec ray.y = 0 then delta
  else if dec ray.y = 0 then ⟨delta.x, 0⟩
  else ⟨0, delta.y⟩

/-- The wall grid is W columns by H rows and its border frame holds nonzero
tiles (the map authoring invariant of spec section 3). -/
def Enclosed (g : List (List ℕ)) (W H : ℕ) : Prop :=
  ∀ i j : ℕ, i < H → j < W →
    (i = 0 ∨ i = H - 1 ∨ j = 0 ∨ j = W - 1) → tileIdx g i j ≠ 0

/-- The hit a correct cast must produce: a nonzero tile, whose grid indices
(the truncation of the hit point) lie inside the W by H grid and select
exactly the reported tile id. -/
def goodHit (g : List (List ℕ)) (W H : ℕ) (h : Hit) : Prop :=
  h.tile ≠ 0 ∧
  0 ≤ trunc h.whereAt.x ∧ trunc h.whereAt.x < (W : ℤ) ∧
  0 ≤ trunc h.whereAt.y ∧ trunc h.whereAt.y < (H : ℤ) ∧
  tileIdx g (trunc h.whereAt.y).toNat (trunc h.whereAt.x).toNat = h.tile

/-- Position invariant maintained by the cast recursion for direction d in a
W by H enclosed grid: strictly inside the grid, and strictly left of (below)
the last column (row) of cells when moving right (up). -/
def Inv (d : Point) (W H : ℕ) (p : Point) : Prop :=
  0 < p.x ∧ p.x < (W : ℚ) ∧ 0 < p.y ∧ p.y < (H : ℚ) ∧
  (0 < d.x → p.x < (W : ℚ) - 1) ∧ (0 < d.y → p.y < (H : ℚ) - 1)

/-- Count of grid lines the cast recursion can still cross along one axis:
toward the far border when the direction component is positive, toward the
near border when negative. -/
def measAxis (dc : ℚ) (Wc : ℕ) (c : ℚ) : ℤ :=
  if 0 < dc then (Wc : ℤ) - 1 - ⌊c⌋ else if dc < 0 then ⌈c⌉ else 0

/-- Termination measure for the cast recursion. -/
def meas (d : Point) (W H : ℕ) (p : Point) : ℕ :=
  (measAxis d.x W p.x).toNat + (measAxis d.y H p.y).toNat

/-- A concrete 3 by 3 wall grid, fully enclosed by nonzero border tiles,
with a single empty interior cell; counterexample and witness input. -/
def wall3 : List (List ℕ) := [[1, 1, 1], [1, 0, 1], [1, 1, 1]]

/-! General facts about the truncation, floor and ceiling helpers. -/

theorem point_eq {a b : Point} (hx : a.x = b.x) (hy : a.y = b.y) : a = b := by
  cases a
  cases b
  simp_all

theorem trunc_of_nonneg {q : ℚ} (h : 0 ≤ q) : trunc q = ⌊q⌋ := by
  rw [trunc, if_neg (not_lt.mpr h)]

theorem trunc_of_neg {q : ℚ} (h : q < 0) : trunc q = ⌈q⌉ := by
  rw [trunc, if_pos h]

theorem trunc_intCast (z : ℤ) : trunc ((z : ℤ) : ℚ) = z := by
  rcases lt_or_le (z : ℚ) 0 with h | h
  · rw [trunc_of_neg h, Int.ceil_intCast]
  · rw [trunc_of_nonneg h, Int.floor_intCast]

theorem trunc_nonneg {q : ℚ} (h : 0 ≤ q) : 0 ≤ trunc q := by
  rw [trunc_of_nonneg h]
  exact Int.floor_nonneg.mpr h

theorem trunc_le_self_of_nonneg {q : ℚ} (h : 0 ≤ q) : (trunc q : ℚ) ≤ q := by
  rw [trunc_of_nonneg h]
  exact Int.floor_le q

theorem trunc_le_intCast {q : ℚ} {z : ℤ} (h : q ≤ (z : ℚ)) : trunc q ≤ z := by
  rcases lt_or_le q 0 with hq | hq
  · rw [trunc_of_neg hq]
    exact Int.ceil_le.mpr h
  · rw [trunc_of_nonneg hq]
    exact le_trans (Int.floor_le_floor h) (le_of_eq (Int.floor_intCast z))

theorem trunc_mono {p q : ℚ} (h : p ≤ q) : trunc p ≤ trunc q := by
  rcases lt_or_le p 0 with hp | hp
  · rcases lt_or_le q 0 with hq | hq
    · rw [trunc_of_neg hp, trunc_of_neg hq]
      exact Int.ceil_le_ceil h
    · rw [trunc_of_neg hp, trunc_of_nonneg hq]
      have h1 : ⌈p⌉ ≤ 0 := Int.ceil_le.mpr (by exact_mod_cast hp.le)
      have h2 : 0 ≤ ⌊q⌋ := Int.floor_nonneg.mpr hq
      omega
  · rw [trunc_of_nonneg hp, trunc_of_nonneg (le_trans hp h)]
    exact Int.floor_le_floor h

theorem ceil_eq_floor_add_one_of_not_int {q : ℚ} (h : q ≠ ((⌊q⌋ : ℤ) : ℚ)) :
    ⌈q⌉ = ⌊q⌋ + 1 := by
  have h1 : ⌈q⌉ ≤ ⌊q⌋ + 1 := Int.ceil_le_floor_add_one q
  have h2 : (⌊q⌋ : ℚ) < q := lt_of_le_of_ne (Int.floor_le q) (fun he => h he.symm)
  have h3 : (⌊q⌋ : ℚ) < (⌈q⌉ : ℚ) := lt_of_lt_of_le h2 (Int.le_ceil q)
  have h4 : ⌊q⌋ < ⌈q⌉ := by exact_mod_cast h3
  omega

theorem fl_eq_floor (x : ℚ) : fl x = ⌊x⌋ := by
  rcases lt_or_le x 0 with hx | hx
  · rw [fl, trunc_of_neg hx]
    by_cases hint : x = ((⌈x⌉ : ℤ) : ℚ)
    · rw [if_neg (by rw [← hint]; exact lt_irrefl x)]
      rw [hint, Int.floor_intCast, Int.ceil_intCast]
      omega
    · have hlt : x < ((⌈x⌉ : ℤ) : ℚ) := lt_of_le_of_ne (Int.le_ceil x) hint
      rw [if_pos hlt]
      have hni : x ≠ ((⌊x⌋ : ℤ) : ℚ) := by
        intro he
        exact hint (by rw [he, Int.ceil_intCast])
      have := ceil_eq_floor_add_one_of_not_int hni
      omega
  · rw [fl, trunc_of_nonneg hx, if_neg (not_lt.mpr (Int.floor_le x))]
    omega

theorem cl_eq_ceil (x : ℚ) : cl x = ⌈x⌉ := by
  rcases lt_or_le x 0 with hx | hx
  · rw [cl, trunc_of_neg hx, if_neg (not_lt.mpr (Int.le_ceil x))]
    omega
  · rw [cl, trunc_of_nonneg hx]
    by_cases hint : x = ((⌊x⌋ : ℤ) : ℚ)
    · rw [if_neg (by rw [← hint]; exact lt_irrefl x)]
      rw [hint, Int.floor_intCast, Int.ceil_intCast]
      omega
    · have hlt : ((⌊x⌋ : ℤ) : ℚ) < x := lt_of_le_of_ne (Int.floor_le x) (fun he => hint he.symm)
      rw [if_pos hlt]
      have := ceil_eq_floor_add_one_of_not_int hint
      omega

theorem dec_eq_zero_iff {x : ℚ} : dec x = 0 ↔ x = ((trunc x : ℤ) : ℚ) := by
  rw [dec, sub_eq_zero]

theorem dec_intCast (z : ℤ) : dec ((z : ℤ) : ℚ) = 0 := by
  rw [dec, trunc_intCast, sub_self]

/-! Geometry of the two step candidates of the raycaster: each one, when
finite, lies forward along the ray from a in direction d, at parameter
t > 0, and sits exactly on the next grid line of its axis. -/

theorem fl_add_one (q : ℚ) : fl (q + 1) = ⌊q⌋ + 1 := by
  rw [fl_eq_floor, Int.floor_add_one]

theorem cl_sub_one (q : ℚ) : cl (q - 1) = ⌈q⌉ - 1 := by
  rw [cl_eq_ceil, Int.ceil_sub_one]

theorem sh_param {a d r : Point} (hx : d.x ≠ 0) (h : sh a d = some r) :
    ∃ t : ℚ, 0 < t ∧ r.x = a.x + d.x * t ∧ r.y = a.y + d.y * t ∧
      ((0 < d.x ∧ r.x = ((⌊a.x⌋ : ℤ) : ℚ) + 1) ∨
       (d.x < 0 ∧ r.x = ((⌈a.x⌉ : ℤ) : ℚ) - 1)) := by
  rw [sh, if_neg hx] at h
  refine ⟨(r.x - a.x) / d.x, ?_, by field_simp, ?_, ?_⟩
  · -- the step strictly advances x in the sign of d.x, so t > 0
    rcases lt_or_gt_of_ne hx with hneg | hpos
    · rw [if_neg (not_lt.mpr hneg.le)] at h
      have hrx : r.x = ((cl (a.x - 1) : ℤ) : ℚ) := by
        rw [← Option.some.inj h]
      rw [cl_sub_one] at hrx
      have hlt : r.x < a.x := by
        rw [hrx]
        push_cast
        have := Int.ceil_lt_add_one a.x
        linarith
      exact div_pos_of_neg_of_neg (by linarith) hneg
    · rw [if_pos hpos] at h
      have hrx : r.x = ((fl (a.x + 1) : ℤ) : ℚ) := by
        rw [← Option.some.inj h]
      rw [fl_add_one] at hrx
      have hgt : a.x < r.x := by
        rw [hrx]
        push_cast
        have := Int.lt_floor_add_one a.x
        linarith
      exact div_pos (by linarith) hpos
  · -- the ordinate follows the slope: y = a.y + d.y * t
    have hry : r.y = slope d * (r.x - a.x) + a.y := by
      rcases lt_or_gt_of_ne hx with hneg | hpos
      · rw [if_neg (not_lt.mpr hneg.le)] at h
        rw [← Option.some.inj h]
      · rw [if_pos hpos] at h
        rw [← Option.some.inj h]
    rw [hry, slope]
    field_simp
    ring
  · rcases lt_or_gt_of_ne hx with hneg | hpos
    · refine Or.inr ⟨hneg, ?_⟩
      rw [if_neg (not_lt.mpr hneg.le)] at h
      have hrx : r.x = ((cl (a.x - 1) : ℤ) : ℚ) := by
        rw [← Option.some.inj h]
      rw [cl_sub_one] at hrx
      rw [hrx]
      push_cast
      ring
    · refine Or.inl ⟨hpos, ?_⟩
      rw [if_pos hpos] at h
      have hrx : r.x = ((fl (a.x + 1) : ℤ) : ℚ) := by
        rw [← Option.some.inj h]
      rw [fl_add_one] at hrx
      rw [hrx]
      push_cast
      ring

theorem sv_param {a d r : Point} (hy : d.y ≠ 0) (h : sv a d = some r) :
    ∃ t : ℚ, 0 < t ∧ r.x = a.x + d.x * t ∧ r.y = a.y + d.y * t ∧
      ((0 < d.y ∧ r.y = ((⌊a.y⌋ : ℤ) : ℚ) + 1) ∨
       (d.y < 0 ∧ r.y = ((⌈a.y⌉ : ℤ) : ℚ) - 1)) := by
  rw [sv, if_neg hy] at h
  refine ⟨(r.y - a.y) / d.y, ?_, ?_, by field_simp, ?_⟩
  · rcases lt_or_gt_of_ne hy with hneg | hpos
    · rw [if_neg (not_lt.mpr hneg.le)] at h
      have hry : r.y = ((cl (a.y - 1) : ℤ) : ℚ) := by
        rw [← Option.some.inj h]
      rw [cl_sub_one] at hry
      have hlt : r.y < a.y := by
        rw [hry]
        push_cast
        have := Int.ceil_lt_add_one a.y
        linarith
      exact div_pos_of_neg_of_neg (by linarith) hneg
    · rw [if_pos hpos] at h
      have hry : r.y = ((fl (a.y + 1) : ℤ) : ℚ) := by
        rw [← Option.some.inj h]
      rw [fl_add_one] at hry
      have hgt : a.y < r.y := by
        rw [hry]
        push_cast
        have := Int.lt_floor_add_one a.y
        linarith
      exact div_pos (by linarith) hpos
  · -- the abscissa: x = a.x + d.x * t, including the d.x = 0 case where
    -- both sides collapse to a.x through total division by zero
    have hrx : r.x = (r.y - a.y) / slope d + a.x := by
      rcases lt_or_gt_of_ne hy with hneg | hpos
      · rw [if_neg (not_lt.mpr hneg.le)] at h
        have h2 := Option.some.inj h
        rw [← h2]
      · rw [if_pos hpos] at h
        have h2 := Option.some.inj h
        rw [← h2]
    rw [hrx, slope, div_div_eq_mul_div]
    field_simp
    ring
  · rcases lt_or_gt_of_ne hy with hneg | hpos
    · refine Or.inr ⟨hneg, ?_⟩
      rw [if_neg (not_lt.mpr hneg.le)] at h
      have hry : r.y = ((cl (a.y - 1) : ℤ) : ℚ) := by
        rw [← Option.some.inj h]
      rw [cl_sub_one] at hry
      rw [hry]
      push_cast
      ring
    · refine Or.inl ⟨hpos, ?_⟩
      rw [if_pos hpos] at h
      have hry : r.y = ((fl (a.y + 1) : ℤ) : ℚ) := by
        rw [← Option.some.inj h]
      rw [fl_add_one] at hry
      rw [hry]
      push_cast
      ring

theorem sh_none_iff {a d : Point} : sh a d = none ↔ d.x = 0 := by
  constructor
  · intro h
    by_contra hx
    rw [sh, if_neg hx] at h
    simp at h
  · intro h
    rw [sh, if_pos h]

theorem sv_none_iff {a d : Point} : sv a d = none ↔ d.y = 0 := by
  constructor
  · intro h
    by_contra hy
    rw [sv, if_neg hy] at h
    simp at h
  · intro h
    rw [sv, if_pos h]

theorem rayStep_cases {a d r : Point} (h : rayStep a d = some r) :
    (sh a d = some r ∧
      (sv a d = none ∨ ∃ q, sv a d = some q ∧ mag2 (sub r a) < mag2 (sub q a))) ∨
    (sv a d = some r ∧
      (sh a d = none ∨ ∃ q, sh a d = some q ∧ ¬ mag2 (sub q a) < mag2 (sub r a))) := by
  rw [rayStep] at h
  cases hsh : sh a d with
  | none =>
    cases hsv : sv a d with
    | none =>
      rw [hsh, hsv] at h
      simp [cmp] at h
    | some q =>
      rw [hsh, hsv] at h
      simp only [cmp, Option.some.injEq] at h
      subst h
      exact Or.inr ⟨rfl, Or.inl rfl⟩
  | some p =>
    cases hsv : sv a d with
    | none =>
      rw [hsh, hsv] at h
      simp only [cmp, Option.some.injEq] at h
      subst h
      exact Or.inl ⟨rfl, Or.inl rfl⟩
    | some q =>
      rw [hsh, hsv] at h
      simp only [cmp, Option.some.injEq] at h
      by_cases hlt : mag2 (sub p a) < mag2 (sub q a)
      · rw [if_pos hlt] at h
        subst h
        exact Or.inl ⟨rfl, Or.inr ⟨q, rfl, hlt⟩⟩
      · rw [if_neg hlt] at h
        subst h
        exact Or.inr ⟨rfl, Or.inr ⟨p, rfl, hlt⟩⟩

theorem rayStep_isSome (a : Point) {d : Point} (hd : d ≠ (⟨0, 0⟩ : Point)) :
    ∃ r, rayStep a d = some r := by
  by_cases hx : d.x = 0
  · have hy : d.y ≠ 0 := by
      intro hy
      exact hd (point_eq hx hy)
    rw [rayStep, sh, if_pos hx, sv, if_neg hy]
    exact ⟨_, rfl⟩
  · rw [rayStep, sh, if_neg hx]
    cases hsv : sv a d with
    | none => exact ⟨_, rfl⟩
    | some q => exact ⟨_, rfl⟩

theorem mag2_sub_of_param {a d r : Point} {t : ℚ}
    (hx : r.x = a.x + d.x * t) (hy : r.y = a.y + d.y * t) :
    mag2 (sub r a) = t * t * mag2 d := by
  rw [sub, mag2, mag2, hx, hy]
  ring

theorem mag2_pos {d : Point} (hd : d ≠ (⟨0, 0⟩ : Point)) : 0 < mag2 d := by
  rcases lt_or_eq_of_le (add_nonneg (mul_self_nonneg d.x) (mul_self_nonneg d.y)) with h | h
  · exact h
  · exfalso
    have hx : d.x * d.x = 0 := by nlinarith [mul_self_nonneg d.x, mul_self_nonneg d.y]
    have hy : d.y * d.y = 0 := by nlinarith [mul_self_nonneg d.x, mul_self_nonneg d.y]
    exact hd (point_eq (mul_self_eq_zero.mp hx) (mul_self_eq_zero.mp hy))

theorem param_lt {t1 t2 m : ℚ} (h : t1 * t1 * m < t2 * t2 * m)
    (hm : 0 < m) (h1 : 0 < t1) (h2 : 0 < t2) : t1 < t2 := by
  by_contra hc
  push_neg at hc
  exact absurd (lt_of_mul_lt_mul_right h hm.le)
    (not_lt.mpr (mul_self_le_mul_self h2.le hc))

theorem param_le {t1 t2 m : ℚ} (h : ¬ t1 * t1 * m < t2 * t2 * m)
    (hm : 0 < m) (h1 : 0 < t1) (h2 : 0 < t2) : t2 ≤ t1 := by
  by_contra hc
  push_neg at hc
  exact h (by nlinarith [mul_self_lt_mul_self h1.le hc])

/-! Coordinates of the nudged sample point. -/

theorem nudge_x (d r : Point) :
    (nudge d r).x = if dec r.x = 0 then d.x * (1/100) else 0 := by
  by_cases h1 : dec r.x = 0 <;> by_cases h2 : dec r.y = 0 <;>
    simp [nudge, mul, h1, h2]

theorem nudge_y (d r : Point) (hor : dec r.x = 0 ∨ dec r.y = 0) :
    (nudge d r).y = if dec r.y = 0 then d.y * (1/100) else 0 := by
  by_cases h1 : dec r.x = 0 <;> by_cases h2 : dec r.y = 0 <;>
    simp [nudge, mul, h1, h2]
  exact absurd hor (by tauto)

/-! One axis of one step of the cast recursion: where the nudged sample
coordinate truncates to, and how an interior sample cell re-establishes the
position invariant.  The coordinate rc is the chosen crossing, ac the
previous position, dc the direction component, Wc the grid extent along the
axis. -/

theorem axis_step {dc ac rc : ℚ} (Wc : ℕ)
    (hdc : |dc| < 100)
    (hb1 : 0 < dc → ac < rc ∧ rc ≤ ((⌊ac⌋ : ℤ) : ℚ) + 1)
    (hb2 : dc < 0 → ((⌈ac⌉ : ℤ) : ℚ) - 1 ≤ rc ∧ rc < ac)
    (hb3 : dc = 0 → rc = ac)
    (hI1 : 0 < ac) (hI2 : ac < (Wc : ℚ)) (hI3 : 0 < dc → ac < (Wc : ℚ) - 1) :
    0 ≤ trunc (if dec rc = 0 then rc + dc * (1/100) else rc) ∧
    trunc (if dec rc = 0 then rc + dc * (1/100) else rc) < (Wc : ℤ) ∧
    (1 ≤ trunc (if dec rc = 0 then rc + dc * (1/100) else rc) →
     trunc (if dec rc = 0 then rc + dc * (1/100) else rc) ≤ (Wc : ℤ) - 2 →
     0 < rc ∧ rc < (Wc : ℚ) ∧ (0 < dc → rc < (Wc : ℚ) - 1)) := by
  have hWq : (0 : ℚ) < (Wc : ℚ) := lt_trans hI1 hI2
  have hWpos : 0 < (Wc : ℤ) := by exact_mod_cast hWq
  obtain ⟨habs1, habs2⟩ := abs_lt.mp hdc
  by_cases hdec : dec rc = 0
  · rw [if_pos hdec]
    have hk : rc = ((trunc rc : ℤ) : ℚ) := dec_eq_zero_iff.mp hdec
    rcases lt_trichotomy dc 0 with hneg | hzero | hpos
    · -- moving in the negative direction: the crossing is at integer k,
      -- the sample sits in (k - 1, k)
      obtain ⟨h1, h2⟩ := hb2 hneg
      have hceil1 : 1 ≤ ⌈ac⌉ := Int.lt_ceil.mpr (by exact_mod_cast hI1)
      have hk0 : 0 ≤ trunc rc := by
        have h3 : ((⌈ac⌉ : ℤ) : ℚ) - 1 ≤ ((trunc rc : ℤ) : ℚ) := by rw [← hk]; exact h1
        have h4 : ((⌈ac⌉ - 1 : ℤ) : ℚ) ≤ ((trunc rc : ℤ) : ℚ) := by push_cast; linarith
        have h5 : ⌈ac⌉ - 1 ≤ trunc rc := by exact_mod_cast h4
        omega
      have htc1 : ((trunc rc : ℤ) : ℚ) - 1 < rc + dc * (1/100) := by
        rw [← hk]; linarith
      have htc2 : rc + dc * (1/100) < ((trunc rc : ℤ) : ℚ) := by
        rw [← hk]; linarith
      have hkW : trunc rc < (Wc : ℤ) := by
        have h3 : ((trunc rc : ℤ) : ℚ) < (Wc : ℚ) := by rw [← hk]; linarith
        exact_mod_cast h3
      by_cases hk1 : trunc rc = 0
      · have htneg : rc + dc * (1/100) < 0 := by
          rw [hk1] at htc2; exact_mod_cast htc2
        have htr : trunc (rc + dc * (1/100)) = 0 := by
          rw [trunc_of_neg htneg, Int.ceil_eq_iff]
          rw [hk1] at htc1
          push_cast at htc1 ⊢
          constructor <;> linarith
        rw [htr]
        refine ⟨le_refl 0, hWpos, ?_⟩
        intro hi1
        exact absurd hi1 (by omega)
      · have hk2 : 1 ≤ trunc rc := by omega
        have hk2q : (1 : ℚ) ≤ ((trunc rc : ℤ) : ℚ) := by exact_mod_cast hk2
        have htr : trunc (rc + dc * (1/100)) = trunc rc - 1 := by
          rw [trunc_of_nonneg (by linarith), Int.floor_eq_iff]
          push_cast
          constructor <;> linarith
        rw [htr]
        refine ⟨by omega, by omega, ?_⟩
        intro hi1 hi2
        have hc1 : (2 : ℚ) ≤ ((trunc rc : ℤ) : ℚ) := by
          exact_mod_cast (by omega : (2 : ℤ) ≤ trunc rc)
        have hc2 : ((trunc rc : ℤ) : ℚ) ≤ (Wc : ℚ) - 1 := by
          have h3 : ((trunc rc : ℤ) : ℚ) ≤ (((Wc : ℤ) - 1 : ℤ) : ℚ) :=
            by exact_mod_cast (by omega : trunc rc ≤ (Wc : ℤ) - 1)
          push_cast at h3
          linarith
        exact ⟨by rw [hk]; linarith, by rw [hk]; linarith,
          fun hp => absurd hp (by linarith)⟩
    · -- direction component zero: the position does not move on this axis
      have hra : rc = ac := hb3 hzero
      have heq : rc + dc * (1/100) = rc := by rw [hzero]; ring
      rw [heq]
      have hk1 : (0 : ℚ) < ((trunc rc : ℤ) : ℚ) := by rw [← hk, hra]; exact hI1
      have hk2 : 0 < trunc rc := by exact_mod_cast hk1
      have hkW : trunc rc < (Wc : ℤ) := by
        have h3 : ((trunc rc : ℤ) : ℚ) < (Wc : ℚ) := by rw [← hk, hra]; exact hI2
        exact_mod_cast h3
      refine ⟨by omega, hkW, ?_⟩
      intro hi1 hi2
      exact ⟨by rw [hra]; exact hI1, by rw [hra]; exact hI2,
        fun hp => absurd hp (by rw [hzero]; exact lt_irrefl 0)⟩
    · -- moving in the positive direction: the crossing is at integer k,
      -- the sample sits in (k, k + 1)
      obtain ⟨h1, h2⟩ := hb1 hpos
      have hk1 : 1 ≤ trunc rc := by
        have h3 : (0 : ℚ) < ((trunc rc : ℤ) : ℚ) := by rw [← hk]; linarith
        have h4 : (0 : ℤ) < trunc rc := by exact_mod_cast h3
        omega
      have hk1q : (1 : ℚ) ≤ ((trunc rc : ℤ) : ℚ) := by exact_mod_cast hk1
      have htc1 : ((trunc rc : ℤ) : ℚ) < rc + dc * (1/100) := by
        rw [← hk]; linarith
      have htc2 : rc + dc * (1/100) < ((trunc rc : ℤ) : ℚ) + 1 := by
        rw [← hk]; linarith
      have htr : trunc (rc + dc * (1/100)) = trunc rc := by
        rw [trunc_of_nonneg (by linarith), Int.floor_eq_iff]
        push_cast
        constructor <;> linarith
      have hflr : ⌊ac⌋ ≤ (Wc : ℤ) - 2 := by
        have h3 : ⌊ac⌋ < (Wc : ℤ) - 1 := Int.floor_lt.mpr (by push_cast; linarith [hI3 hpos])
        omega
      have hkW : trunc rc ≤ (Wc : ℤ) - 1 := by
        have h3 : ((trunc rc : ℤ) : ℚ) ≤ ((⌊ac⌋ : ℤ) : ℚ) + 1 := by rw [← hk]; exact h2
        have h4 : trunc rc ≤ ⌊ac⌋ + 1 := by exact_mod_cast h3
        omega
      rw [htr]
      refine ⟨by omega, by omega, ?_⟩
      intro hi1 hi2
      have hc2 : ((trunc rc : ℤ) : ℚ) ≤ (Wc : ℚ) - 2 := by
        have h3 : ((trunc rc : ℤ) : ℚ) ≤ (((Wc : ℤ) - 2 : ℤ) : ℚ) := by exact_mod_cast hi2
        push_cast at h3
        linarith
      exact ⟨by rw [hk]; linarith, by rw [hk]; linarith, fun _ => by rw [hk]; linarith⟩
  · rw [if_neg hdec]
    have hnint : ∀ z : ℤ, rc ≠ ((z : ℤ) : ℚ) := by
      intro z he
      exact hdec (by rw [he]; exact dec_intCast z)
    rcases lt_trichotomy dc 0 with hneg | hzero | hpos
    · -- negative direction, non-integral crossing coordinate:
      -- the sample equals the crossing, strictly inside a cell
      obtain ⟨h1, h2⟩ := hb2 hneg
      have hceil1 : 1 ≤ ⌈ac⌉ := Int.lt_ceil.mpr (by exact_mod_cast hI1)
      have hceil1q : (1 : ℚ) ≤ ((⌈ac⌉ : ℤ) : ℚ) := by exact_mod_cast hceil1
      have hne : ((⌈ac⌉ : ℤ) : ℚ) - 1 ≠ rc := by
        intro he
        refine hnint (⌈ac⌉ - 1) ?_
        push_cast
        linarith
      have hgt : ((⌈ac⌉ : ℤ) : ℚ) - 1 < rc := lt_of_le_of_ne h1 hne
      have h0rc : 0 < rc := by linarith
      have htr : trunc rc = ⌈ac⌉ - 1 := by
        rw [trunc_of_nonneg h0rc.le, Int.floor_eq_iff]
        push_cast
        constructor
        · linarith
        · have h3 : ac ≤ ((⌈ac⌉ : ℤ) : ℚ) := Int.le_ceil ac
          linarith
      have hcW : ⌈ac⌉ ≤ (Wc : ℤ) := Int.ceil_le.mpr (by exact_mod_cast hI2.le)
      rw [htr]
      refine ⟨by omega, by omega, ?_⟩
      intro hi1 hi2
      have hc1 : (2 : ℚ) ≤ ((⌈ac⌉ : ℤ) : ℚ) := by
        exact_mod_cast (by omega : (2 : ℤ) ≤ ⌈ac⌉)
      exact ⟨by linarith, by linarith, fun hp => absurd hp (by linarith)⟩
    · -- direction component zero and non-integral coordinate
      have hra : rc = ac := hb3 hzero
      have h0rc : 0 < rc := by rw [hra]; exact hI1
      have hlt : rc < ((⌊ac⌋ : ℤ) : ℚ) + 1 := by
        rw [hra]; exact Int.lt_floor_add_one ac
      have hge : ((⌊ac⌋ : ℤ) : ℚ) ≤ rc := by rw [hra]; exact Int.floor_le ac
      have hfl0 : 0 ≤ ⌊ac⌋ := Int.floor_nonneg.mpr hI1.le
      have htr : trunc rc = ⌊ac⌋ := by
        rw [trunc_of_nonneg h0rc.le, Int.floor_eq_iff]
        push_cast
        constructor <;> linarith
      have hflW : ⌊ac⌋ < (Wc : ℤ) := Int.floor_lt.mpr (by exact_mod_cast hI2)
      rw [htr]
      refine ⟨hfl0, hflW, ?_⟩
      intro hi1 hi2
      exact ⟨h0rc, by rw [hra]; exact hI2,
        fun hp => absurd hp (by rw [hzero]; exact lt_irrefl 0)⟩
    · -- positive direction, non-integral crossing coordinate
      obtain ⟨h1, h2⟩ := hb1 hpos
      have hne : rc ≠ ((⌊ac⌋ : ℤ) : ℚ) + 1 := by
        intro he
        refine hnint (⌊ac⌋ + 1) ?_
        push_cast
        linarith
      have hlt : rc < ((⌊ac⌋ : ℤ) : ℚ) + 1 := lt_of_le_of_ne h2 hne
      have hge : ((⌊ac⌋ : ℤ) : ℚ) ≤ rc := le_trans (Int.floor_le ac) h1.le
      have h0rc : 0 < rc := lt_trans hI1 h1
      have hfl0 : 0 ≤ ⌊ac⌋ := Int.floor_nonneg.mpr hI1.le
      have htr : trunc rc = ⌊ac⌋ := by
        rw [trunc_of_nonneg h0rc.le, Int.floor_eq_iff]
        push_cast
        constructor <;> linarith
      have hflW : ⌊ac⌋ < (Wc : ℤ) := Int.floor_lt.mpr (by exact_mod_cast hI2)
      rw [htr]
      refine ⟨hfl0, hflW, ?_⟩
      intro hi1 hi2
      have hc2 : ((⌊ac⌋ : ℤ) : ℚ) ≤ (Wc : ℚ) - 2 := by
        have h3 : ((⌊ac⌋ : ℤ) : ℚ) ≤ (((Wc : ℤ) - 2 : ℤ) : ℚ) := by exact_mod_cast hi2
        push_cast at h3
        linarith
      exact ⟨h0rc, by linarith, fun _ => by linarith⟩

/-! The full geometry of one chosen step of the cast recursion. -/

theorem step_spec {a d r : Point} (hd : d ≠ (⟨0, 0⟩ : Point))
    (hr : rayStep a d = some r) :
    (0 < d.x → a.x < r.x ∧ r.x ≤ ((⌊a.x⌋ : ℤ) : ℚ) + 1) ∧
    (d.x < 0 → ((⌈a.x⌉ : ℤ) : ℚ) - 1 ≤ r.x ∧ r.x < a.x) ∧
    (d.x = 0 → r.x = a.x) ∧
    (0 < d.y → a.y < r.y ∧ r.y ≤ ((⌊a.y⌋ : ℤ) : ℚ) + 1) ∧
    (d.y < 0 → ((⌈a.y⌉ : ℤ) : ℚ) - 1 ≤ r.y ∧ r.y < a.y) ∧
    (d.y = 0 → r.y = a.y) ∧
    (dec r.x = 0 ∨ dec r.y = 0) ∧
    ((0 < d.x ∧ r.x = ((⌊a.x⌋ : ℤ) : ℚ) + 1) ∨
     (d.x < 0 ∧ r.x = ((⌈a.x⌉ : ℤ) : ℚ) - 1) ∨
     (0 < d.y ∧ r.y = ((⌊a.y⌋ : ℤ) : ℚ) + 1) ∨
     (d.y < 0 ∧ r.y = ((⌈a.y⌉ : ℤ) : ℚ) - 1)) := by
  have hm := mag2_pos hd
  rcases rayStep_cases hr with ⟨hsh, hcmp⟩ | ⟨hsv, hcmp⟩
  · -- the horizontal step sh was chosen
    have hx : d.x ≠ 0 := by
      intro h0
      rw [sh, if_pos h0] at hsh
      exact Option.noConfusion hsh
    obtain ⟨t, ht, hrx, hry, hprog⟩ := sh_param hx hsh
    have hdecx : dec r.x = 0 := by
      rcases hprog with ⟨_, he⟩ | ⟨_, he⟩
      · have hc : ((⌊a.x⌋ : ℤ) : ℚ) + 1 = ((⌊a.x⌋ + 1 : ℤ) : ℚ) := by push_cast; ring
        rw [he, hc]
        exact dec_intCast _
      · have hc : ((⌈a.x⌉ : ℤ) : ℚ) - 1 = ((⌈a.x⌉ - 1 : ℤ) : ℚ) := by push_cast; ring
        rw [he, hc]
        exact dec_intCast _
    have hxpos : 0 < d.x → a.x < r.x ∧ r.x ≤ ((⌊a.x⌋ : ℤ) : ℚ) + 1 := by
      intro hdx
      rcases hprog with ⟨_, he⟩ | ⟨hneg, _⟩
      · refine ⟨?_, le_of_eq he⟩
        rw [he]
        have := Int.lt_floor_add_one a.x
        push_cast
        linarith
      · linarith
    have hxneg : d.x < 0 → ((⌈a.x⌉ : ℤ) : ℚ) - 1 ≤ r.x ∧ r.x < a.x := by
      intro hdx
      rcases hprog with ⟨hpos, _⟩ | ⟨_, he⟩
      · linarith
      · refine ⟨le_of_eq he.symm, ?_⟩
        rw [he]
        have := Int.ceil_lt_add_one a.x
        push_cast
        linarith
    rcases hcmp with hsvnone | ⟨q, hsvq, hlt⟩
    · -- the vertical candidate was non-finite, so d.y = 0
      have hy0 : d.y = 0 := sv_none_iff.mp hsvnone
      have hyz : r.y = a.y := by rw [hry, hy0]; ring
      refine ⟨hxpos, hxneg, fun h0 => absurd h0 hx, ?_, ?_, fun _ => hyz,
        Or.inl hdecx, ?_⟩
      · intro hdy
        rw [hy0] at hdy
        exact absurd hdy (lt_irrefl 0)
      · intro hdy
        rw [hy0] at hdy
        exact absurd hdy (lt_irrefl 0)
      · rcases hprog with ⟨hp, he⟩ | ⟨hp, he⟩
        · exact Or.inl ⟨hp, he⟩
        · exact Or.inr (Or.inl ⟨hp, he⟩)
    · -- both candidates finite; sh strictly closer, so t < t2
      have hy : d.y ≠ 0 := by
        intro h0
        rw [sv, if_pos h0] at hsvq
        exact Option.noConfusion hsvq
      obtain ⟨t2, ht2, hqx, hqy, hqprog⟩ := sv_param hy hsvq
      rw [mag2_sub_of_param hrx hry, mag2_sub_of_param hqx hqy] at hlt
      have hcomp : t < t2 := param_lt hlt hm ht ht2
      have hypos : 0 < d.y → a.y < r.y ∧ r.y ≤ ((⌊a.y⌋ : ℤ) : ℚ) + 1 := by
        intro hdy
        rcases hqprog with ⟨_, hqe⟩ | ⟨hneg, _⟩
        · have hq2 : a.y + d.y * t2 = ((⌊a.y⌋ : ℤ) : ℚ) + 1 := by
            rw [← hqy]
            exact hqe
          constructor
          · rw [hry]
            nlinarith [mul_pos hdy ht]
          · rw [hry]
            nlinarith [mul_pos hdy (sub_pos.mpr hcomp)]
        · linarith
      have hyneg : d.y < 0 → ((⌈a.y⌉ : ℤ) : ℚ) - 1 ≤ r.y ∧ r.y < a.y := by
        intro hdy
        rcases hqprog with ⟨hpos, _⟩ | ⟨_, hqe⟩
        · linarith
        · have hq2 : a.y + d.y * t2 = ((⌈a.y⌉ : ℤ) : ℚ) - 1 := by
            rw [← hqy]
            exact hqe
          constructor
          · rw [hry]
            nlinarith [mul_pos (neg_pos.mpr hdy) (sub_pos.mpr hcomp)]
          · rw [hry]
            nlinarith [mul_pos (neg_pos.mpr hdy) ht]
      refine ⟨hxpos, hxneg, fun h0 => absurd h0 hx, hypos, hyneg,
        fun h0 => absurd h0 hy, Or.inl hdecx, ?_⟩
      rcases hprog with ⟨hp, he⟩ | ⟨hp, he⟩
      · exact Or.inl ⟨hp, he⟩
      · exact Or.inr (Or.inl ⟨hp, he⟩)
  · -- the vertical step sv was chosen
    have hy : d.y ≠ 0 := by
      intro h0
      rw [sv, if_pos h0] at hsv
      exact Option.noConfusion hsv
    obtain ⟨t, ht, hrx, hry, hprog⟩ := sv_param hy hsv
    have hdecy : dec r.y = 0 := by
      rcases hprog with ⟨_, he⟩ | ⟨_, he⟩
      · have hc : ((⌊a.y⌋ : ℤ) : ℚ) + 1 = ((⌊a.y⌋ + 1 : ℤ) : ℚ) := by push_cast; ring
        rw [he, hc]
        exact dec_intCast _
      · have hc : ((⌈a.y⌉ : ℤ) : ℚ) - 1 = ((⌈a.y⌉ - 1 : ℤ) : ℚ) := by push_cast; ring
        rw [he, hc]
        exact dec_intCast _
    have hypos : 0 < d.y → a.y < r.y ∧ r.y ≤ ((⌊a.y⌋ : ℤ) : ℚ) + 1 := by
      intro hdy
      rcases hprog with ⟨_, he⟩ | ⟨hneg, _⟩
      · refine ⟨?_, le_of_eq he⟩
        rw [he]
        have := Int.lt_floor_add_one a.y
        push_cast
        linarith
      · linarith
    have hyneg : d.y < 0 → ((⌈a.y⌉ : ℤ) : ℚ) - 1 ≤ r.y ∧ r.y < a.y := by
      intro hdy
      rcases hprog with ⟨hpos, _⟩ | ⟨_, he⟩
      · linarith
      · refine ⟨le_of_eq he.symm, ?_⟩
        rw [he]
        have := Int.ceil_lt_add_one a.y
        push_cast
        linarith
    rcases hcmp with hshnone | ⟨q, hshq, hnlt⟩
    · have hx0 : d.x = 0 := sh_none_iff.mp hshnone
      have hxz : r.x = a.x := by rw [hrx, hx0]; ring
      refine ⟨?_, ?_, fun _ => hxz, hypos, hyneg, fun h0 => absurd h0 hy,
        Or.inr hdecy, ?_⟩
      · intro hdx
        rw [hx0] at hdx
        exact absurd hdx (lt_irrefl 0)
      · intro hdx
        rw [hx0] at hdx
        exact absurd hdx (lt_irrefl 0)
      · rcases hprog with ⟨hp, he⟩ | ⟨hp, he⟩
        · exact Or.inr (Or.inr (Or.inl ⟨hp, he⟩))
        · exact Or.inr (Or.inr (Or.inr ⟨hp, he⟩))
    · have hx : d.x ≠ 0 := by
        intro h0
        rw [sh, if_pos h0] at hshq
        exact Option.noConfusion hshq
      obtain ⟨t2, ht2, hqx, hqy, hqprog⟩ := sh_param hx hshq
      rw [mag2_sub_of_param hqx hqy, mag2_sub_of_param hrx hry] at hnlt
      have hcomp : t ≤ t2 := param_le hnlt hm ht2 ht
      have hxpos : 0 < d.x → a.x < r.x ∧ r.x ≤ ((⌊a.x⌋ : ℤ) : ℚ) + 1 := by
        intro hdx
        rcases hqprog with ⟨_, hqe⟩ | ⟨hneg, _⟩
        · have hq2 : a.x + d.x * t2 = ((⌊a.x⌋ : ℤ) : ℚ) + 1 := by
            rw [← hqx]
            exact hqe
          constructor
          · rw [hrx]
            nlinarith [mul_pos hdx ht]
          · rw [hrx]
            nlinarith [mul_nonneg hdx.le (sub_nonneg.mpr hcomp)]
        · linarith
      have hxneg : d.x < 0 → ((⌈a.x⌉ : ℤ) : ℚ) - 1 ≤ r.x ∧ r.x < a.x := by
        intro hdx
        rcases hqprog with ⟨hpos, _⟩ | ⟨_, hqe⟩
        · linarith
        · have hq2 : a.x + d.x * t2 = ((⌈a.x⌉ : ℤ) : ℚ) - 1 := by
            rw [← hqx]
            exact hqe
          constructor
          · rw [hrx]
            nlinarith [mul_nonneg (neg_pos.mpr hdx).le (sub_nonneg.mpr hcomp)]
          · rw [hrx]
            nlinarith [mul_pos (neg_pos.mpr hdx) ht]
      refine ⟨hxpos, hxneg, fun h0 => absurd h0 hx, hypos, hyneg,
        fun h0 => absurd h0 hy, Or.inr hdecy, ?_⟩
      rcases hprog with ⟨hp, he⟩ | ⟨hp, he⟩
      · exact Or.inr (Or.inr (Or.inl ⟨hp, he⟩))
      · exact Or.inr (Or.inr (Or.inr ⟨hp, he⟩))

/-! The termination measure decreases across each recursion step. -/

theorem measAxis_mono {dc : ℚ} {Wc : ℕ} {ac rc : ℚ}
    (h1 : 0 < dc → ac ≤ rc) (h2 : dc < 0 → rc ≤ ac) :
    measAxis dc Wc rc ≤ measAxis dc Wc ac := by
  unfold measAxis
  rcases lt_trichotomy dc 0 with hneg | hzero | hpos
  · have hnp : ¬ 0 < dc := not_lt.mpr hneg.le
    rw [if_neg hnp, if_neg hnp, if_pos hneg, if_pos hneg]
    exact Int.ceil_le_ceil (h2 hneg)
  · rw [hzero]
    simp
  · rw [if_pos hpos, if_pos hpos]
    have := Int.floor_le_floor (h1 hpos)
    omega

theorem measAxis_dec_pos {dc : ℚ} (Wc : ℕ) {ac rc : ℚ} (hdc : 0 < dc)
    (hr : rc = ((⌊ac⌋ : ℤ) : ℚ) + 1) (hlt : ac < (Wc : ℚ) - 1) :
    measAxis dc Wc rc = measAxis dc Wc ac - 1 ∧ 1 ≤ measAxis dc Wc ac := by
  unfold measAxis
  rw [if_pos hdc, if_pos hdc]
  have hfr : ⌊rc⌋ = ⌊ac⌋ + 1 := by
    have hc : ((⌊ac⌋ : ℤ) : ℚ) + 1 = ((⌊ac⌋ + 1 : ℤ) : ℚ) := by push_cast; ring
    rw [hr, hc, Int.floor_intCast]
  have hfl : ⌊ac⌋ < (Wc : ℤ) - 1 := Int.floor_lt.mpr (by push_cast; linarith)
  constructor <;> omega

theorem measAxis_dec_neg {dc : ℚ} (Wc : ℕ) {ac rc : ℚ} (hdc : dc < 0)
    (hr : rc = ((⌈ac⌉ : ℤ) : ℚ) - 1) (hpos : 0 < ac) :
    measAxis dc Wc rc = measAxis dc Wc ac - 1 ∧ 1 ≤ measAxis dc Wc ac := by
  unfold measAxis
  have hnp : ¬ 0 < dc := not_lt.mpr hdc.le
  rw [if_neg hnp, if_neg hnp, if_pos hdc, if_pos hdc]
  have hcr : ⌈rc⌉ = ⌈ac⌉ - 1 := by
    have hc : ((⌈ac⌉ : ℤ) : ℚ) - 1 = ((⌈ac⌉ - 1 : ℤ) : ℚ) := by push_cast; ring
    rw [hr, hc, Int.ceil_intCast]
  have h1 : 1 ≤ ⌈ac⌉ := Int.lt_ceil.mpr (by exact_mod_cast hpos)
  constructor <;> omega

theorem tile_pos_idx {a : Point} {g : List (List ℕ)}
    (hx : 0 ≤ trunc a.x) (hy : 0 ≤ trunc a.y) :
    tile a g = tileIdx g (trunc a.y).toNat (trunc a.x).toNat := by
  rw [tile, if_pos ⟨hx, hy⟩]

theorem castFuel_succ (n : ℕ) (p d : Point) (g : List (List ℕ)) {r : Point}
    (hr : rayStep p d = some r) :
    castFuel (n + 1) p d g =
      if tile (add r (nudge d r)) g ≠ 0 then
        some ⟨tile (add r (nudge d r)) g, add r (nudge d r)⟩
      else castFuel n r d g := by
  simp only [castFuel]
  rw [hr]

/-! The main induction: from any position satisfying the invariant, with
enough fuel the cast recursion reaches a nonzero tile of the enclosed grid
and reports it faithfully. -/

theorem castFuel_spec (g : List (List ℕ)) (W H : ℕ) (d : Point)
    (henc : Enclosed g W H) (hd : d ≠ (⟨0, 0⟩ : Point))
    (hdx : |d.x| < 100) (hdy : |d.y| < 100) :
    ∀ n p, Inv d W H p → meas d W H p < n →
      ∃ hit, castFuel n p d g = some hit ∧ goodHit g W H hit := by
  intro n
  induction n with
  | zero =>
    intro p _ hm
    omega
  | succ n ih =>
    intro p hInv hm
    obtain ⟨hpx0, hpxW, hpy0, hpyH, hpx3, hpy3⟩ := hInv
    obtain ⟨r, hr⟩ := rayStep_isSome p hd
    obtain ⟨sx1, sx2, sx3, sy1, sy2, sy3, hdec, hprog⟩ := step_spec hd hr
    have htx : (add r (nudge d r)).x =
        if dec r.x = 0 then r.x + d.x * (1/100) else r.x := by
      show r.x + (nudge d r).x = _
      rw [nudge_x]
      by_cases h : dec r.x = 0 <;> simp [h]
    have hty : (add r (nudge d r)).y =
        if dec r.y = 0 then r.y + d.y * (1/100) else r.y := by
      show r.y + (nudge d r).y = _
      rw [nudge_y d r hdec]
      by_cases h : dec r.y = 0 <;> simp [h]
    have hax := axis_step W hdx sx1 sx2 sx3 hpx0 hpxW hpx3
    have hay := axis_step H hdy sy1 sy2 sy3 hpy0 hpyH hpy3
    rw [← htx] at hax
    rw [← hty] at hay
    obtain ⟨hax0, haxW, haxI⟩ := hax
    obtain ⟨hay0, hayW, hayI⟩ := hay
    rw [castFuel_succ n p d g hr]
    by_cases htile : tile (add r (nudge d r)) g = 0
    · rw [if_neg (not_not_intro htile)]
      have hIdx : tileIdx g (trunc (add r (nudge d r)).y).toNat
          (trunc (add r (nudge d r)).x).toNat = 0 := by
        rw [← tile_pos_idx hax0 hay0]
        exact htile
      have hiW : (trunc (add r (nudge d r)).x).toNat < W := by omega
      have hiH : (trunc (add r (nudge d r)).y).toNat < H := by omega
      have hint : ¬ ((trunc (add r (nudge d r)).y).toNat = 0 ∨
          (trunc (add r (nudge d r)).y).toNat = H - 1 ∨
          (trunc (add r (nudge d r)).x).toNat = 0 ∨
          (trunc (add r (nudge d r)).x).toNat = W - 1) :=
        fun hb => (henc _ _ hiH hiW hb) hIdx
      push_neg at hint
      obtain ⟨hby1, hby2, hbx1, hbx2⟩ := hint
      have hix1 : 1 ≤ trunc (add r (nudge d r)).x := by omega
      have hix2 : trunc (add r (nudge d r)).x ≤ (W : ℤ) - 2 := by omega
      have hiy1 : 1 ≤ trunc (add r (nudge d r)).y := by omega
      have hiy2 : trunc (add r (nudge d r)).y ≤ (H : ℤ) - 2 := by omega
      obtain ⟨hrx0, hrxW, hrx3⟩ := haxI hix1 hix2
      obtain ⟨hry0, hryH, hry3⟩ := hayI hiy1 hiy2
      have hmx : measAxis d.x W r.x ≤ measAxis d.x W p.x :=
        measAxis_mono (fun h => (sx1 h).1.le) (fun h => (sx2 h).2.le)
      have hmy : measAxis d.y H r.y ≤ measAxis d.y H p.y :=
        measAxis_mono (fun h => (sy1 h).1.le) (fun h => (sy2 h).2.le)
      have hless : meas d W H r < meas d W H p := by
        rcases hprog with ⟨hp, he⟩ | ⟨hp, he⟩ | ⟨hp, he⟩ | ⟨hp, he⟩
        · obtain ⟨he1, he2⟩ := measAxis_dec_pos W hp he (hpx3 hp)
          unfold meas
          omega
        · obtain ⟨he1, he2⟩ := measAxis_dec_neg W hp he hpx0
          unfold meas
          omega
        · obtain ⟨he1, he2⟩ := measAxis_dec_pos H hp he (hpy3 hp)
          unfold meas
          omega
        · obtain ⟨he1, he2⟩ := measAxis_dec_neg H hp he hpy0
          unfold meas
          omega
      exact ih r ⟨hrx0, hrxW, hry0, hryH, hrx3, hry3⟩ (by omega)
    · rw [if_pos htile]
      refine ⟨⟨tile (add r (nudge d r)) g, add r (nudge d r)⟩, rfl,
        htile, hax0, haxW, hay0, hayW, ?_⟩
      rw [← tile_pos_idx hax0 hay0]

/-! Claim C1: termination and correctness of cast.  As stated the claim
fails: the epsilon nudge is 0.01 times the direction vector, so a direction
with a large component makes the nudged sample skip whole cells (out of the
grid entirely, an out-of-range read in C), and an origin outside the grid is
never brought back; in both situations the recursion never meets a nonzero
tile.  The amended claim bounds the direction components and puts the origin
strictly inside the enclosed region. -/

theorem castFuel_east_step (n k : ℕ) :
    castFuel (n + 1) ⟨(k : ℚ) + 2, 3/2⟩ ⟨300, 0⟩ wall3 =
      castFuel n ⟨(k : ℚ) + 3, 3/2⟩ ⟨300, 0⟩ wall3 := by
  have hray : rayStep ⟨(k : ℚ) + 2, 3/2⟩ ⟨300, 0⟩ = some ⟨(k : ℚ) + 3, 3/2⟩ := by
    have hsh : sh ⟨(k : ℚ) + 2, 3/2⟩ ⟨300, 0⟩ = some ⟨(k : ℚ) + 3, 3/2⟩ := by
      rw [sh, if_neg (by norm_num)]
      have hfl : fl ((k : ℚ) + 2 + 1) = (k : ℤ) + 3 := by
        rw [fl_eq_floor]
        rw [show ((k : ℚ) + 2 + 1) = (((k : ℤ) + 3 : ℤ) : ℚ) by push_cast; ring]
        exact Int.floor_intCast _
      rw [if_pos (by norm_num : (0 : ℚ) < 300), hfl]
      have hsl : slope (⟨300, 0⟩ : Point) = 0 := by
        rw [slope]
        norm_num
      rw [hsl]
      simp only [Option.some.injEq, Point.mk.injEq]
      constructor
      · push_cast
        ring
      · ring
    rw [rayStep, hsh, sv, if_pos rfl]
    rfl
  rw [castFuel_succ n _ _ _ hray]
  have hdx : dec ((⟨(k : ℚ) + 3, 3/2⟩ : Point).x) = 0 := by
    show dec ((k : ℚ) + 3) = 0
    rw [show ((k : ℚ) + 3) = (((k : ℤ) + 3 : ℤ) : ℚ) by push_cast; ring]
    exact dec_intCast _
  have hdy : dec ((⟨(k : ℚ) + 3, 3/2⟩ : Point).y) ≠ 0 := by
    show dec (3/2 : ℚ) ≠ 0
    rw [dec, trunc_of_nonneg (by norm_num)]
    norm_num
  have htest : add ⟨(k : ℚ) + 3, 3/2⟩ (nudge ⟨300, 0⟩ ⟨(k : ℚ) + 3, 3/2⟩) =
      ⟨(k : ℚ) + 6, 3/2⟩ := by
    rw [nudge, if_neg (by tauto), if_pos hdx]
    refine point_eq ?_ ?_ <;> simp [add, mul] <;> ring
  rw [htest]
  have htile : tile ⟨(k : ℚ) + 6, 3/2⟩ wall3 = 0 := by
    have htr : trunc ((k : ℚ) + 6) = (k : ℤ) + 6 := by
      rw [show ((k : ℚ) + 6) = (((k : ℤ) + 6 : ℤ) : ℚ) by push_cast; ring]
      exact trunc_intCast _
    have hty : trunc ((3 : ℚ)/2) = 1 := by
      rw [trunc_of_nonneg (by norm_num)]
      norm_num
    show tile ⟨(k : ℚ) + 6, 3/2⟩ wall3 = 0
    rw [tile]
    simp only [htr, hty]
    rw [if_pos ⟨by omega, by omega⟩]
    show tileIdx wall3 1 ((k : ℤ) + 6).toNat = 0
    rw [tileIdx]
    show ([1, 0, 1].getD ((k : ℤ) + 6).toNat 0) = 0
    refine List.getD_eq_default _ _ ?_
    show [1, 0, 1].length ≤ ((k : ℤ) + 6).toNat
    simp
    omega
  rw [if_neg (not_not_intro htile)]

theorem castFuel_east_none : ∀ n k : ℕ,
    castFuel n ⟨(k : ℚ) + 2, 3/2⟩ ⟨300, 0⟩ wall3 = none := by
  intro n
  induction n with
  | zero => intro k; rfl
  | succ n ih =>
    intro k
    rw [castFuel_east_step n k]
    have hc : ((k : ℚ) + 3) = (((k + 1 : ℕ) : ℚ) + 2) := by push_cast; ring
    rw [hc]
    exact ih (k + 1)

theorem castFuel_west_step (n k : ℕ) :
    castFuel (n + 1) ⟨-3 - (k : ℚ), 3/2⟩ ⟨-1, 0⟩ wall3 =
      castFuel n ⟨-4 - (k : ℚ), 3/2⟩ ⟨-1, 0⟩ wall3 := by
  have hray : rayStep ⟨-3 - (k : ℚ), 3/2⟩ ⟨-1, 0⟩ = some ⟨-4 - (k : ℚ), 3/2⟩ := by
    have hsh : sh ⟨-3 - (k : ℚ), 3/2⟩ ⟨-1, 0⟩ = some ⟨-4 - (k : ℚ), 3/2⟩ := by
      rw [sh, if_neg (by norm_num)]
      have hcl : cl (-3 - (k : ℚ) - 1) = -4 - (k : ℤ) := by
        rw [cl_eq_ceil]
        rw [show (-3 - (k : ℚ) - 1) = (((-4 - (k : ℤ)) : ℤ) : ℚ) by push_cast; ring]
        exact Int.ceil_intCast _
      rw [if_neg (by norm_num : ¬ (0 : ℚ) < -1), hcl]
      have hsl : slope (⟨-1, 0⟩ : Point) = 0 := by
        rw [slope]
        norm_num
      rw [hsl]
      simp only [Option.some.injEq, Point.mk.injEq]
      constructor
      · push_cast
        ring
      · ring
    rw [rayStep, hsh, sv, if_pos rfl]
    rfl
  rw [castFuel_succ n _ _ _ hray]
  have hdx : dec ((⟨-4 - (k : ℚ), 3/2⟩ : Point).x) = 0 := by
    show dec (-4 - (k : ℚ)) = 0
    rw [show (-4 - (k : ℚ)) = (((-4 - (k : ℤ)) : ℤ) : ℚ) by push_cast; ring]
    exact dec_intCast _
  have hdy : dec ((⟨-4 - (k : ℚ), 3/2⟩ : Point).y) ≠ 0 := by
    show dec (3/2 : ℚ) ≠ 0
    rw [dec, trunc_of_nonneg (by norm_num)]
    norm_num
  have htest : add ⟨-4 - (k : ℚ), 3/2⟩ (nudge ⟨-1, 0⟩ ⟨-4 - (k : ℚ), 3/2⟩) =
      ⟨-4 - (k : ℚ) - 1/100, 3/2⟩ := by
    rw [nudge, if_neg (by tauto), if_pos hdx]
    refine point_eq ?_ ?_ <;> simp [add, mul] <;> ring
  rw [htest]
  have htile : tile ⟨-4 - (k : ℚ) - 1/100, 3/2⟩ wall3 = 0 := by
    have htr : trunc (-4 - (k : ℚ) - 1/100) ≤ -1 :=
      trunc_le_intCast (by push_cast; linarith [(by positivity : (0 : ℚ) ≤ (k : ℚ))])
    have hcond : ¬ (0 ≤ trunc ((⟨-4 - (k : ℚ) - 1/100, 3/2⟩ : Point).x) ∧
        0 ≤ trunc ((⟨-4 - (k : ℚ) - 1/100, 3/2⟩ : Point).y)) := by
      rintro ⟨h1, h2⟩
      have h1x : 0 ≤ trunc (-4 - (k : ℚ) - 1/100) := h1
      omega
    rw [tile, if_neg hcond]
  rw [if_neg (not_not_intro htile)]

theorem castFuel_west_none : ∀ n k : ℕ,
    castFuel n ⟨-3 - (k : ℚ), 3/2⟩ ⟨-1, 0⟩ wall3 = none := by
  intro n
  induction n with
  | zero => intro k; rfl
  | succ n ih =>
    intro k
    rw [castFuel_west_step n k]
    have hc : (-4 - (k : ℚ)) = (-3 - ((k + 1 : ℕ) : ℚ)) := by push_cast; ring
    rw [hc]
    exact ih (k + 1)

theorem enclosed_wall3 : Enclosed wall3 3 3 := by
  intro i j hi hj hb
  interval_cases i <;> interval_cases j <;> first | decide | exact absurd hb (by decide)

/-- Counterexample to claim C1 as stated: wall3 is fully enclosed by nonzero
border tiles and both directions are non-zero, yet cast does not terminate
from the interior origin (3/2, 3/2) with the large direction (300, 0) (the
3-unit nudge jumps past the border, and in C the recursion reads past the
row), nor from the outside origin (-5/2, 3/2) with direction (-1, 0). -/
theorem cast_unbounded_direction_diverges :
    ¬ castTerminates ⟨3/2, 3/2⟩ ⟨300, 0⟩ wall3 ∧
    ¬ castTerminates ⟨-5/2, 3/2⟩ ⟨-1, 0⟩ wall3 ∧
    Enclosed wall3 3 3 ∧
    (⟨300, 0⟩ : Point) ≠ (⟨0, 0⟩ : Point) ∧
    (⟨-1, 0⟩ : Point) ≠ (⟨0, 0⟩ : Point) := by
  refine ⟨?_, ?_, ?_, ?_, ?_⟩
  · rintro ⟨n, hit, he⟩
    have h0 : ((3 : ℚ)/2) = ((0 : ℕ) : ℚ) + 3/2 := by norm_num
    cases n with
    | zero => exact Option.noConfusion he
    | succ n =>
      have hstep : castFuel (n + 1) ⟨3/2, 3/2⟩ ⟨300, 0⟩ wall3 =
          castFuel n ⟨2, 3/2⟩ ⟨300, 0⟩ wall3 := by
        have hc : (⟨3/2, 3/2⟩ : Point) = ⟨(0 : ℚ) + 3/2, 3/2⟩ := by norm_num
        have hray : rayStep ⟨3/2, 3/2⟩ ⟨300, 0⟩ = some ⟨2, 3/2⟩ := by
          have hsh : sh ⟨3/2, 3/2⟩ ⟨300, 0⟩ = some ⟨2, 3/2⟩ := by
            rw [sh, if_neg (by norm_num)]
            have hfl : fl ((3 : ℚ)/2 + 1) = 2 := by
              rw [fl_eq_floor]
              norm_num
            rw [if_pos (by norm_num : (0 : ℚ) < 300), hfl]
            have hsl : slope (⟨300, 0⟩ : Point) = 0 := by
              rw [slope]
              norm_num
            rw [hsl]
            norm_num
          rw [rayStep, hsh, sv, if_pos rfl]
          rfl
        rw [castFuel_succ n _ _ _ hray]
        have hdx : dec ((⟨(2 : ℚ), 3/2⟩ : Point).x) = 0 := by
          show dec ((2 : ℚ)) = 0
          rw [show ((2 : ℚ)) = (((2 : ℤ)) : ℚ) by norm_num]
          exact dec_intCast _
        have htest : add ⟨(2 : ℚ), 3/2⟩ (nudge ⟨300, 0⟩ ⟨(2 : ℚ), 3/2⟩) =
            ⟨(5 : ℚ), 3/2⟩ := by
          rw [nudge, if_neg ?hc, if_pos hdx]
          case hc =>
            rintro ⟨h1, h2⟩
            revert h2
            show ¬ dec ((3 : ℚ)/2) = 0
            rw [dec, trunc_of_nonneg (by norm_num)]
            norm_num
          refine point_eq ?_ ?_ <;> simp [add, mul] <;> ring
        rw [htest]
        have htile : tile ⟨(5 : ℚ), 3/2⟩ wall3 = 0 := by
          have htr : trunc ((5 : ℚ)) = 5 := by
            rw [show ((5 : ℚ)) = (((5 : ℤ)) : ℚ) by norm_num]
            exact trunc_intCast _
          have hty : trunc ((3 : ℚ)/2) = 1 := by
            rw [trunc_of_nonneg (by norm_num)]
            norm_num
          rw [tile]
          simp only [htr, hty]
          rw [if_pos ⟨by omega, by omega⟩]
          rfl
        rw [if_neg (not_not_intro htile)]
      rw [hstep] at he
      have hnone := castFuel_east_none n 0
      rw [show (((0 : ℕ) : ℚ) + 2) = (2 : ℚ) by norm_num] at hnone
      rw [hnone] at he
      exact Option.noConfusion he
  · rintro ⟨n, hit, he⟩
    cases n with
    | zero => exact Option.noConfusion he
    | succ n =>
      have hstep : castFuel (n + 1) ⟨-5/2, 3/2⟩ ⟨-1, 0⟩ wall3 =
          castFuel n ⟨-3, 3/2⟩ ⟨-1, 0⟩ wall3 := by
        have hray : rayStep ⟨-5/2, 3/2⟩ ⟨-1, 0⟩ = some ⟨-3, 3/2⟩ := by
          have hsh : sh ⟨-5/2, 3/2⟩ ⟨-1, 0⟩ = some ⟨-3, 3/2⟩ := by
            rw [sh, if_neg (by norm_num)]
            have hcl : cl ((-5 : ℚ)/2 - 1) = -3 := by
              rw [cl_eq_ceil]
              rw [show ((-5 : ℚ)/2 - 1) = (-7/2 : ℚ) by norm_num]
              rw [Int.ceil_eq_iff] <;> norm_num
            rw [if_neg (by norm_num : ¬ (0 : ℚ) < -1), hcl]
            have hsl : slope (⟨-1, 0⟩ : Point) = 0 := by
              rw [slope]
              norm_num
            rw [hsl]
            norm_num
          rw [rayStep, hsh, sv, if_pos rfl]
          rfl
        rw [castFuel_succ n _ _ _ hray]
        have hdx : dec ((⟨(-3 : ℚ), 3/2⟩ : Point).x) = 0 := by
          show dec ((-3 : ℚ)) = 0
          rw [show ((-3 : ℚ)) = (((-3 : ℤ)) : ℚ) by norm_num]
          exact dec_intCast _
        have htest : add ⟨(-3 : ℚ), 3/2⟩ (nudge ⟨-1, 0⟩ ⟨(-3 : ℚ), 3/2⟩) =
            ⟨(-301 : ℚ)/100, 3/2⟩ := by
          rw [nudge, if_neg ?hc2, if_pos hdx]
          case hc2 =>
            rintro ⟨h1, h2⟩
            revert h2
            show ¬ dec ((3 : ℚ)/2) = 0
            rw [dec, trunc_of_nonneg (by norm_num)]
            norm_num
          refine point_eq ?_ ?_ <;> simp [add, mul] <;> ring
        rw [htest]
        have htile : tile ⟨(-301 : ℚ)/100, 3/2⟩ wall3 = 0 := by
          have htr : trunc ((-301 : ℚ)/100) ≤ -1 :=
            trunc_le_intCast (by norm_num)
          have hcond : ¬ (0 ≤ trunc ((⟨(-301 : ℚ)/100, 3/2⟩ : Point).x) ∧
              0 ≤ trunc ((⟨(-301 : ℚ)/100, 3/2⟩ : Point).y)) := by
            rintro ⟨h1, h2⟩
            have h1x : 0 ≤ trunc ((-301 : ℚ)/100) := h1
            omega
          rw [tile, if_neg hcond]
        rw [if_neg (not_not_intro htile)]
      rw [hstep] at he
      have hnone := castFuel_west_none n 0
      rw [show (-3 - ((0 : ℕ) : ℚ)) = (-3 : ℚ) by norm_num] at hnone
      rw [hnone] at he
      exact Option.noConfusion he
  · exact enclosed_wall3
  · intro h
    have := congrArg Point.x h
    norm_num at this
  · intro h
    have := congrArg Point.x h
    norm_num at this

/-- Claim C1 amended: for every wall grid fully enclosed by nonzero border
tiles (extent W by H), every origin strictly inside the inner region
(0 < x < W - 1 and 0 < y < H - 1), and every non-zero direction vector whose
components are both below 100 in absolute value (so that the 0.01-scaled
nudge advances less than one tile and cannot skip the border), cast
terminates and returns a Hit whose where, truncated to integer grid
coordinates, indexes a nonzero, in-range tile of the wall grid, and whose
tile field equals that tile id. -/
theorem cast_enclosed_terminates (g : List (List ℕ)) (W H : ℕ) (p d : Point)
    (henc : Enclosed g W H) (hd : d ≠ (⟨0, 0⟩ : Point))
    (hdx : |d.x| < 100) (hdy : |d.y| < 100)
    (hx0 : 0 < p.x) (hx1 : p.x < (W : ℚ) - 1)
    (hy0 : 0 < p.y) (hy1 : p.y < (H : ℚ) - 1) :
    ∃ n hit, castFuel n p d g = some hit ∧ goodHit g W H hit := by
  have hInv : Inv d W H p :=
    ⟨hx0, by linarith, hy0, by linarith, fun _ => hx1, fun _ => hy1⟩
  obtain ⟨hit, h1, h2⟩ := castFuel_spec g W H d henc hd hdx hdy
    (meas d W H p + 1) p hInv (by omega)
  exact ⟨meas d W H p + 1, hit, h1, h2⟩

/-- Witness for claim C1 amended: casting due east from (3/2, 3/2) inside
the enclosed 3 by 3 grid terminates with a valid nonzero-tile hit. -/
theorem cast_enclosed_terminates_witness :
    ∃ n hit, castFuel n ⟨3/2, 3/2⟩ ⟨1, 0⟩ wall3 = some hit ∧
      goodHit wall3 3 3 hit :=
  cast_enclosed_terminates wall3 3 3 ⟨3/2, 3/2⟩ ⟨1, 0⟩ enclosed_wall3
    (by intro h; exact absurd (congrArg Point.x h) (by norm_num))
    (by norm_num) (by norm_num) (by norm_num) (by norm_num) (by norm_num)
    (by norm_num)

/-! Claim C8: lerp boundary identity. -/

/-- Claim C8: for every Line, lerp at parameter 0 returns the first endpoint
and lerp at parameter 1 returns the second endpoint. -/
theorem lerp_boundary (l : Line) : lerp l 0 = l.a ∧ lerp l 1 = l.b := by
  constructor <;> refine point_eq ?_ ?_ <;> simp [lerp, add, mul, sub]

/-! Claim C4: the projection formula. -/

/-- Claim C4: project returns the Wall with
size = (1/2) * focal * xres / max (corrected.x) (1/100) where focal is
fov.a.x, top = (yres + size) / 2 truncated to int (Wall.top is an int) and
clamped from above to yres, and bot = (yres - size) / 2 truncated to int and
clamped from below to 0. -/
theorem project_formula (xres yres : ℤ) (fov : Line) (c : Point) :
    project xres yres fov c =
      ⟨min yres (trunc (((yres : ℚ) + 1/2 * fov.a.x * (xres : ℚ) / max c.x (1/100)) / 2)),
       max 0 (trunc (((yres : ℚ) - 1/2 * fov.a.x * (xres : ℚ) / max c.x (1/100)) / 2)),
       1/2 * fov.a.x * (xres : ℚ) / max c.x (1/100)⟩ := by
  have hmax : (if c.x < 1/100 then (1/100 : ℚ) else c.x) = max c.x (1/100) := by
    rcases lt_or_le c.x (1/100) with h | h
    · rw [if_pos h, max_eq_right h.le]
    · rw [if_neg (not_lt.mpr h), max_eq_left h]
  unfold project
  rw [hmax]
  simp only [Wall.mk.injEq]
  refine ⟨?_, ?_, trivial⟩
  · split <;> omega
  · split <;> omega

/-! Claim C10: the three spans of a projected column are ordered. -/

/-- Claim C10: for yres nonnegative, focal positive and xres positive, the
Wall returned by project satisfies 0 ≤ bot ≤ top ≤ yres, so the floor span
below bot, the wall span between bot and top, and the ceiling span above top
are well ordered and non overlapping. -/
theorem project_ordered_spans (xres yres : ℤ) (fov : Line) (c : Point)
    (hy : 0 ≤ yres) (hf : 0 < fov.a.x) (hx : 0 < xres) :
    0 ≤ (project xres yres fov c).bot ∧
    (project xres yres fov c).bot ≤ (project xres yres fov c).top ∧
    (project xres yres fov c).top ≤ yres := by
  have hxq : (0 : ℚ) < (xres : ℚ) := by exact_mod_cast hx
  have hyq : (0 : ℚ) ≤ (yres : ℚ) := by exact_mod_cast hy
  have hden : (0 : ℚ) < (if c.x < 1/100 then (1/100 : ℚ) else c.x) := by
    split
    · norm_num
    · linarith [not_lt.mp (by assumption : ¬ c.x < 1/100)]
  have hsize : (0 : ℚ) < 1/2 * fov.a.x * (xres : ℚ) /
      (if c.x < 1/100 then (1/100 : ℚ) else c.x) := by
    apply div_pos _ hden
    positivity
  unfold project
  set size := 1/2 * fov.a.x * (xres : ℚ) / (if c.x < 1/100 then (1/100 : ℚ) else c.x)
  have hT0 : 0 ≤ trunc (((yres : ℚ) + size) / 2) := trunc_nonneg (by linarith)
  have hBT : trunc (((yres : ℚ) - size) / 2) ≤ trunc (((yres : ℚ) + size) / 2) :=
    trunc_mono (by linarith)
  have hBy : trunc (((yres : ℚ) - size) / 2) ≤ yres :=
    trunc_le_intCast (by linarith)
  refine ⟨?_, ?_, ?_⟩
  · show 0 ≤ (if trunc (((yres : ℚ) - size) / 2) < 0 then 0 else trunc (((yres : ℚ) - size) / 2))
    split <;> omega
  · show (if trunc (((yres : ℚ) - size) / 2) < 0 then 0 else _) ≤
      (if trunc (((yres : ℚ) + size) / 2) > yres then yres else _)
    split <;> split <;> omega
  · show (if trunc (((yres : ℚ) + size) / 2) > yres then yres else _) ≤ yres
    split <;> omega

/-- Witness for claim C10 at the resolution and field of view of main.c,
with perpendicular distance 2. -/
theorem project_ordered_spans_witness :
    0 ≤ (project 500 500 ⟨⟨1, -1⟩, ⟨1, 1⟩⟩ ⟨2, 0⟩).bot ∧
    (project 500 500 ⟨⟨1, -1⟩, ⟨1, 1⟩⟩ ⟨2, 0⟩).bot ≤
      (project 500 500 ⟨⟨1, -1⟩, ⟨1, 1⟩⟩ ⟨2, 0⟩).top ∧
    (project 500 500 ⟨⟨1, -1⟩, ⟨1, 1⟩⟩ ⟨2, 0⟩).top ≤ 500 :=
  project_ordered_spans 500 500 ⟨⟨1, -1⟩, ⟨1, 1⟩⟩ ⟨2, 0⟩ (by norm_num)
    (by norm_num) (by norm_num)

/-! Claim C7: wall size is strictly decreasing in the perpendicular
distance.  The claim as stated fails inside the 1/100 clamp region, where
two different distances give equal sizes. -/

/-- Counterexample to claim C7 as stated: at fixed focal 1 and xres 100, the
perpendicular distances 0 and 1/100 differ, yet project returns the same
size for both, because distances below the 1/100 floor are clamped; so size
is not strictly decreasing on all pairs of distances. -/
theorem project_size_clamp_counterexample :
    (project 100 100 ⟨⟨1, -1⟩, ⟨1, 1⟩⟩ ⟨0, 0⟩).size =
      (project 100 100 ⟨⟨1, -1⟩, ⟨1, 1⟩⟩ ⟨1/100, 0⟩).size ∧
    (0 : ℚ) < 1/100 := by
  constructor
  · norm_num [project]
  · norm_num

/-- Claim C7 amended: for fixed positive focal and xres, the projected size
is strictly decreasing in corrected.x on distances at or above the 1/100
clamp floor: if 1/100 ≤ d1.x < d2.x then the size at d2 is strictly smaller
than the size at d1. -/
theorem project_size_strict_anti (xres yres : ℤ) (fov : Line) (c1 c2 : Point)
    (hf : 0 < fov.a.x) (hx : 0 < xres) (h1 : 1/100 ≤ c1.x) (h12 : c1.x < c2.x) :
    (project xres yres fov c2).size < (project xres yres fov c1).size := by
  have hxq : (0 : ℚ) < (xres : ℚ) := by exact_mod_cast hx
  show (1/2 * fov.a.x * (xres : ℚ) / (if c2.x < 1/100 then (1/100 : ℚ) else c2.x)) <
    (1/2 * fov.a.x * (xres : ℚ) / (if c1.x < 1/100 then (1/100 : ℚ) else c1.x))
  rw [if_neg (not_lt.mpr h1), if_neg (not_lt.mpr (le_trans h1 h12.le))]
  exact div_lt_div_of_pos_left (by positivity) (by linarith) h12

/-- Witness for claim C7 amended: distances 1 and 2 at focal 1, xres 100. -/
theorem project_size_strict_anti_witness :
    (project 100 100 ⟨⟨1, -1⟩, ⟨1, 1⟩⟩ ⟨2, 0⟩).size <
      (project 100 100 ⟨⟨1, -1⟩, ⟨1, 1⟩⟩ ⟨1, 0⟩).size :=
  project_size_strict_anti 100 100 ⟨⟨1, -1⟩, ⟨1, 1⟩⟩ ⟨1, 0⟩ ⟨2, 0⟩
    (by norm_num) (by norm_num) (by norm_num) (by norm_num)

/-! Claim C2: which axis the epsilon nudge moves along.  The claim pairs the
axes the wrong way around: the source nudges along the axis that sits on the
integer boundary, not along the other one. -/

/-- Counterexample to claim C2 as stated: at direction (1, 1) and crossing
point (2, 5/2), exactly x sits on an integer boundary; the source nudge (an
x-axis nudge, giving (1/100, 0)) differs from the nudge the claim words
prescribe (a y-axis nudge when x is the exact boundary, giving (0, 1/100)). -/
theorem nudge_axis_counterexample :
    nudge ⟨1, 1⟩ ⟨2, 5/2⟩ ≠ nudgeSpec ⟨1, 1⟩ ⟨2, 5/2⟩ := by
  have h2 : dec (2 : ℚ) = 0 := by
    have := dec_intCast 2
    norm_num at this
    exact this
  have h52 : dec (5/2 : ℚ) ≠ 0 := by
    rw [dec, trunc_of_nonneg (by norm_num)]
    norm_num
  unfold nudge nudgeSpec
  simp only [mul]
  norm_num [h2, h52, Point.mk.injEq]

/-- Claim C2 amended: when the chosen crossing has exactly one coordinate on
an integer boundary, the nudge is along that same coordinate axis: an x-axis
nudge (by d.x / 100) when x is the exact boundary, and a y-axis nudge (by
d.y / 100) when x is not on a boundary (in cast this means y is); when both
coordinates sit on integer boundaries the nudge is the full direction vector
scaled by 1/100. -/
theorem nudge_boundary_axis (d r : Point) :
    (dec r.x = 0 → dec r.y = 0 → nudge d r = mul d (1/100)) ∧
    (dec r.x = 0 → dec r.y ≠ 0 → nudge d r = ⟨d.x * (1/100), 0⟩) ∧
    (dec r.x ≠ 0 → nudge d r = ⟨0, d.y * (1/100)⟩) := by
  refine ⟨fun h1 h2 => ?_, fun h1 h2 => ?_, fun h1 => ?_⟩
  · rw [nudge, if_pos ⟨h1, h2⟩]
  · rw [nudge, if_neg (by tauto), if_pos h1]
    rfl
  · rw [nudge, if_neg (by tauto), if_neg h1]
    rfl

/-- Witness for claim C2 amended: direction (1, 1) with a corner crossing
(2, 3), an x-boundary crossing (2, 5/2) and a non-x-boundary crossing
(5/2, 2). -/
theorem nudge_boundary_axis_witness :
    nudge ⟨1, 1⟩ ⟨2, 3⟩ = mul ⟨1, 1⟩ (1/100) ∧
    nudge ⟨1, 1⟩ ⟨2, 5/2⟩ = ⟨1 * (1/100), 0⟩ ∧
    nudge ⟨1, 1⟩ ⟨5/2, 2⟩ = ⟨0, 1 * (1/100)⟩ := by
  have h2 : dec (2 : ℚ) = 0 := by
    have := dec_intCast 2
    norm_num at this
    exact this
  have h3 : dec (3 : ℚ) = 0 := by
    have := dec_intCast 3
    norm_num at this
    exact this
  have h52 : dec (5/2 : ℚ) ≠ 0 := by
    rw [dec, trunc_of_nonneg (by norm_num)]
    norm_num
  exact ⟨(nudge_boundary_axis ⟨1, 1⟩ ⟨2, 3⟩).1 h2 h3,
    (nudge_boundary_axis ⟨1, 1⟩ ⟨2, 5/2⟩).2.1 h2 h52,
    (nudge_boundary_axis ⟨1, 1⟩ ⟨5/2, 2⟩).2.2 h52⟩

/-! Claim C9: axis-aligned directions and the slope division.  The claim
says a division by zero in slope is avoided structurally by special cases in
the raycaster; in fact cast computes both step candidates unconditionally,
so for direction.x = 0 the horizontal step sh does evaluate slope with a
zero denominator (the none result below), and the raycaster recovers only
because that non-finite candidate loses the distance comparison in cmp. -/

/-- Counterexample to claim C9 as stated: for the axis-aligned, non-zero
cast direction (0, 1), the horizontal step sh evaluates slope on the
direction with zero denominator direction.x; `sh = none` is the model of
exactly that zero-denominator evaluation (see the comment on `sh`). -/
theorem slope_zero_denominator_counterexample :
    sh ⟨7/2, 7/2⟩ ⟨0, 1⟩ = none ∧ (⟨0, 1⟩ : Point) ≠ (⟨0, 0⟩ : Point) := by
  constructor
  · rw [sh, if_pos rfl]
  · intro h
    have := congrArg Point.y h
    norm_num at this

/-- Claim C9 amended: the division by zero is not avoided; for an
axis-aligned direction the degenerate step candidate (sh when
direction.x = 0, sv when direction.y = 0) is computed with a zero
denominator, yielding a non-finite point, and the step cast actually uses is
the other, well-defined candidate, because cmp discards the non-finite
one. -/
theorem axis_aligned_step_choice (a d : Point) :
    (d.x = 0 → d.y ≠ 0 → sh a d = none ∧ rayStep a d = sv a d) ∧
    (d.y = 0 → d.x ≠ 0 → sv a d = none ∧ rayStep a d = sh a d) := by
  constructor
  · intro hx hy
    have hsh : sh a d = none := by rw [sh, if_pos hx]
    refine ⟨hsh, ?_⟩
    rw [rayStep, hsh]
    cases sv a d <;> rfl
  · intro hy hx
    have hsv : sv a d = none := by rw [sv, if_pos hy]
    have hsh : sh a d = some ⟨if 0 < d.x then ((fl (a.x + 1) : ℤ) : ℚ) else ((cl (a.x - 1) : ℤ) : ℚ),
        slope d * ((if 0 < d.x then ((fl (a.x + 1) : ℤ) : ℚ) else ((cl (a.x - 1) : ℤ) : ℚ)) - a.x) + a.y⟩ := by
      rw [sh, if_neg hx]
    refine ⟨hsv, ?_⟩
    rw [rayStep, hsv, hsh]
    rfl

/-- Witness for claim C9 amended: the vertical direction (0, 1) and the
horizontal direction (1, 0) from the point (3/2, 3/2). -/
theorem axis_aligned_step_choice_witness :
    (sh ⟨3/2, 3/2⟩ ⟨0, 1⟩ = none ∧
      rayStep ⟨3/2, 3/2⟩ ⟨0, 1⟩ = sv ⟨3/2, 3/2⟩ ⟨0, 1⟩) ∧
    (sv ⟨3/2, 3/2⟩ ⟨1, 0⟩ = none ∧
      rayStep ⟨3/2, 3/2⟩ ⟨1, 0⟩ = sh ⟨3/2, 3/2⟩ ⟨1, 0⟩) :=
  ⟨(axis_aligned_step_choice ⟨3/2, 3/2⟩ ⟨0, 1⟩).1 rfl (by norm_num),
   (axis_aligned_step_choice ⟨3/2, 3/2⟩ ⟨1, 0⟩).2 rfl (by norm_num)⟩

/-! Claim C6: the ceiling span.  The renderer's ceiling loop runs its row
index up to gpu.xres, not yres (main.c 342), so at a non-square resolution
the painted ceiling span is the rows from wall.top up to xres, not up to
yres as the claim states; spec section 9 itself flags this bound as a
probable off-by-dimension slip. -/

/-- Claim C6, evaluating the code at the failing input: at xres = 4,
yres = 6 and wall.top = 2 the ceiling loop paints exactly rows 2 and 3
(it stops at gpu.xres = 4), not the rows 2, 3, 4, 5 that the claimed span
from wall.top up to yres = 6 requires. -/
theorem render_ceiling_bound_bug :
    (renderCeiling ⟨⟨1/2, 1/2⟩, ⟨1/2, 1/2⟩⟩ 1 4 6 2 [[1]]).map Prod.fst =
      [2, 3] ∧ ([2, 3] : List ℤ) ≠ [2, 3, 4, 5] := by
  constructor
  · rw [renderCeiling, forRows]
    rw [show (((4 : ℤ) - 2).toNat) = 2 by rfl]
    rw [show List.range 2 = [0, 1] by rfl]
    simp
  · decide

/-! Claim C3: a collision resets the hero exactly. -/

/-- Claim C3: for every hero state, key input and sqrtf, cosf, sinf oracle,
if the wall grid tile at the tentative position (the pre-move position plus
the velocity computed after acceleration or decay and the speed cap,
`moveV2`) is nonzero, then the hero returned by move keeps its pre-update
position exactly and has velocity exactly (0, 0). -/
theorem move_collision_resets (sq co si : ℚ → ℚ) (hero : Hero)
    (walling : List (List ℕ)) (key : Keys)
    (hcol : tile (add hero.whereAt (moveV2 sq co si hero key)) walling ≠ 0) :
    (move sq co si hero walling key).whereAt = hero.whereAt ∧
    (move sq co si hero walling key).velocity = (⟨0, 0⟩ : Point) := by
  unfold move
  rw [if_pos hcol]
  exact ⟨rfl, rfl⟩

/-- Witness for claim C3: a hero at rest on the single wall tile of the grid
[[1]]; the tentative position stays on that tile, and move returns the same
position with zero velocity. -/
theorem move_collision_resets_witness :
    (move (fun _ => 0) (fun q => 0) (fun q => 0)
        ⟨⟨⟨1, -1⟩, ⟨1, 1⟩⟩, ⟨1/2, 1/2⟩, ⟨0, 0⟩, 1, 0, 0⟩ [[1]]
        ⟨false, false, false, false⟩).whereAt = ⟨1/2, 1/2⟩ ∧
    (move (fun _ => 0) (fun _ => 0) (fun _ => 0)
        ⟨⟨⟨1, -1⟩, ⟨1, 1⟩⟩, ⟨1/2, 1/2⟩, ⟨0, 0⟩, 1, 0, 0⟩ [[1]]
        ⟨false, false, false, false⟩).velocity = (⟨0, 0⟩ : Point) :=
  move_collision_resets (fun _ => 0) (fun _ => 0) (fun _ => 0)
    ⟨⟨⟨1, -1⟩, ⟨1, 1⟩⟩, ⟨1/2, 1/2⟩, ⟨0, 0⟩, 1, 0, 0⟩ [[1]]
    ⟨false, false, false, false⟩
    (by norm_num [tile, tileIdx, trunc, add, moveV2, moveV1, mag, mag2, mul,
      unt, dvd])

/-! Claim C5: the speed cap bounds the returned velocity. -/

/-- Claim C5: after any single call to move with positive hero speed, the
magnitude of the returned velocity is at most hero.speed (so at most
hero.speed plus any nonnegative tolerance); stated on squared magnitudes to
stay inside ℚ.  The hypotheses h0 and h1 say the sqrtf oracle is exact and
nonnegative at the one value where the source calls it (the squared
magnitude of the accumulated velocity); under exact arithmetic the tolerance
needed is zero. -/
theorem mag2_rescale {v : Point} {s p : ℚ} (hs : s ≠ 0) (h1 : s * s = mag2 v) :
    mag2 (mul (dvd v s) p) = p * p := by
  rw [mul, dvd]
  simp only [mag2] at h1 ⊢
  field_simp
  linear_combination (-(p * p)) * h1

theorem move_speed_cap (sq co si : ℚ → ℚ) (hero : Hero)
    (walling : List (List ℕ)) (key : Keys)
    (hs : 0 < hero.speed)
    (h0 : 0 ≤ sq (mag2 (moveV1 co si hero key)))
    (h1 : sq (mag2 (moveV1 co si hero key)) * sq (mag2 (moveV1 co si hero key)) =
      mag2 (moveV1 co si hero key)) :
    mag2 (move sq co si hero walling key).velocity ≤ hero.speed * hero.speed := by
  unfold move
  split
  · show mag2 ⟨0, 0⟩ ≤ hero.speed * hero.speed
    simp only [mag2]
    norm_num
    positivity
  · show mag2 (moveV2 sq co si hero key) ≤ hero.speed * hero.speed
    unfold moveV2
    split
    · rename_i hgt
      rw [mag] at hgt
      have hne : sq (mag2 (moveV1 co si hero key)) ≠ 0 := ne_of_gt (lt_trans hs hgt)
      exact le_of_eq (mag2_rescale hne h1)
    · rename_i hle
      rw [mag] at hle
      push_neg at hle
      rw [← h1]
      exact mul_self_le_mul_self h0 hle

/-- Witness for claim C5: hero with speed 1 and velocity (3, 4) drifting
with no key pressed; the accumulated velocity has squared magnitude 25, the
oracle reports 5, the cap rescales to magnitude 1. -/
theorem move_speed_cap_witness :
    mag2 (move (fun q => if q = 25 then 5 else 0) (fun _ => 0) (fun _ => 0)
        ⟨⟨⟨1, -1⟩, ⟨1, 1⟩⟩, ⟨3/2, 3/2⟩, ⟨3, 4⟩, 1, 0, 0⟩ []
        ⟨false, false, false, false⟩).velocity ≤ 1 * 1 :=
  move_speed_cap (fun q => if q = 25 then 5 else 0) (fun _ => 0) (fun _ => 0)
    ⟨⟨⟨1, -1⟩, ⟨1, 1⟩⟩, ⟨3/2, 3/2⟩, ⟨3, 4⟩, 1, 0, 0⟩ []
    ⟨false, false, false, false⟩
    (by norm_num)
    (by dsimp only; split <;> norm_num)
    (by dsimp only; norm_num [moveV1, mag2, mul])

end Littlewolf
